import Mathlib

/-!
Verification of the configuration schema database `module/config/db.py`.

The embedding models Python/YAML data with the `Val` type (JSON-like values
plus timestamps, since `parse_value` can produce `datetime` objects), rows of
the TinyDB-backed SchemaStore as insertion-ordered association lists
(`Row := List (String × Val)`, mirroring Python `dict` semantics where update
of an existing key keeps its position and a new key is appended), and the
store itself as the insertion-ordered list of rows (`TinyDB.insert` appends;
`search` returns matches in insertion order).

File I/O is factored out: functions take the data that the Python code reads
from files (prior store, prior instance config, the schema definition) as
arguments and return the data it writes.
-/

inductive Val where
  | null : Val
  | bool : Bool → Val
  | int : Int → Val
  /-- A Python float, represented exactly as the decimal literal it was parsed
  from: `float num den` denotes `num * 10 ^ (-den)` (CPython floats are binary;
  an exact decimal pair is the abstraction used here). -/
  | float : Int → Nat → Val
  | str : String → Val
  | time : Nat → Nat → Nat → Nat → Nat → Nat → Val
  | dict : List (String × Val) → Val
deriving Repr

mutual

def Val.beq : Val → Val → Bool
  | .null, .null => true
  | .bool a, .bool b => a == b
  | .int a, .int b => a == b
  | .float a b, .float a2 b2 => a == a2 && b == b2
  | .str a, .str b => a == b
  | .time a b c d e f, .time a2 b2 c2 d2 e2 f2 =>
      a == a2 && b == b2 && c == c2 && d == d2 && e == e2 && f == f2
  | .dict d, .dict e => Val.beqFields d e
  | _, _ => false

def Val.beqFields : List (String × Val) → List (String × Val) → Bool
  | [], [] => true
  | (k, v) :: d, (k2, v2) :: e => k == k2 && Val.beq v v2 && Val.beqFields d e
  | _, _ => false

end

mutual

theorem Val.beq_iff : ∀ a b : Val, Val.beq a b = true ↔ a = b
  | .null, .null => by simp [Val.beq]
  | .bool a, .bool b => by simp [Val.beq]
  | .int a, .int b => by simp [Val.beq]
  | .float a b, .float a2 b2 => by simp [Val.beq, and_assoc]
  | .str a, .str b => by simp [Val.beq]
  | .time a b c d e f, .time a2 b2 c2 d2 e2 f2 => by
      simp [Val.beq, and_assoc]
  | .dict d, .dict e => by
      simp only [Val.beq, Val.beqFields_iff d e, Val.dict.injEq]
  | .null, .bool _ | .null, .int _ | .null, .float _ _ | .null, .str _
  | .null, .time _ _ _ _ _ _ | .null, .dict _ => by simp [Val.beq]
  | .bool _, .null | .bool _, .int _ | .bool _, .float _ _ | .bool _, .str _
  | .bool _, .time _ _ _ _ _ _ | .bool _, .dict _ => by simp [Val.beq]
  | .int _, .null | .int _, .bool _ | .int _, .float _ _ | .int _, .str _
  | .int _, .time _ _ _ _ _ _ | .int _, .dict _ => by simp [Val.beq]
  | .float _ _, .null | .float _ _, .bool _ | .float _ _, .int _ | .float _ _, .str _
  | .float _ _, .time _ _ _ _ _ _ | .float _ _, .dict _ => by simp [Val.beq]
  | .str _, .null | .str _, .bool _ | .str _, .int _ | .str _, .float _ _
  | .str _, .time _ _ _ _ _ _ | .str _, .dict _ => by simp [Val.beq]
  | .time _ _ _ _ _ _, .null | .time _ _ _ _ _ _, .bool _ | .time _ _ _ _ _ _, .int _
  | .time _ _ _ _ _ _, .float _ _ | .time _ _ _ _ _ _, .str _
  | .time _ _ _ _ _ _, .dict _ => by simp [Val.beq]
  | .dict _, .null | .dict _, .bool _ | .dict _, .int _ | .dict _, .float _ _
  | .dict _, .str _ | .dict _, .time _ _ _ _ _ _ => by simp [Val.beq]

theorem Val.beqFields_iff : ∀ d e : List (String × Val), Val.beqFields d e = true ↔ d = e
  | [], [] => by simp [Val.beqFields]
  | (k, v) :: d, (k2, v2) :: e => by
      simp only [Val.beqFields, Bool.and_eq_true, beq_iff_eq, Val.beq_iff v v2,
        Val.beqFields_iff d e, List.cons.injEq, Prod.mk.injEq, and_assoc]
  | [], _ :: _ => by simp [Val.beqFields]
  | _ :: _, [] => by simp [Val.beqFields]

end

instance : DecidableEq Val := fun a b =>
  if h : Val.beq a b = true then .isTrue ((Val.beq_iff a b).mp h)
  else .isFalse (fun he => h ((Val.beq_iff a b).mpr he))

/-- A Python `dict` with `Val` values: an insertion-ordered association list. -/
abbrev Row := List (String × Val)

/-- `r[k]` as an `Option` (Python raises `KeyError` when absent). -/
def lookup? (r : Row) (k : String) : Option Val :=
  (r.find? (fun p => p.1 = k)).map (fun p => p.2)

/-- Python `r.get(k, dft)`. -/
def dget (r : Row) (k : String) (dft : Val) : Val :=
  (lookup? r k).getD dft

def hasKey (r : Row) (k : String) : Bool :=
  r.any (fun p => p.1 = k)

/-- Python `r[k] = v`: replaces in place (keeping position) when the key
exists, appends otherwise. -/
def dset (r : Row) (k : String) (v : Val) : Row :=
  if hasKey r k then r.map (fun p => if p.1 = k then (k, v) else p)
  else r ++ [(k, v)]

/-- Python `r.update(u)`. -/
def dupdate (r : Row) (u : Row) : Row :=
  u.foldl (fun acc p => dset acc p.1 p.2) r

/-- Python truthiness of a `Val`. -/
def pyTruthy : Val → Bool
  | .null => false
  | .bool b => b
  | .int n => n != 0
  | .float num _ => num != 0
  | .str s => s != ""
  | .time _ _ _ _ _ _ => true
  | .dict d => !d.isEmpty

/-- Python substring test `sub in s` (computed on character lists so that it
evaluates by kernel reduction). -/
def strContains (s sub : String) : Bool :=
  (List.range (s.toList.length + 1)).any
    (fun i => (s.toList.drop i).take sub.toList.length == sub.toList)

/-- Python `v in container` for the container shapes used here: key membership
for a `dict`, substring membership for a `str` (both operands strings).
Other combinations either raise `TypeError` in Python or are `False`; the
theorems below restrict to `dict` containers, the shape `option` fields have. -/
def pyIn (v container : Val) : Bool :=
  match container with
  | .dict d => match v with
    | .str s => d.any (fun p => p.1 = s)
    | _ => false
  | .str s => match v with
    | .str t => strContains s t
    | _ => false
  | _ => false

def digitsToNat (l : List Char) : Nat :=
  l.foldl (fun acc c => acc * 10 + (c.toNat - 48)) 0

/-- Python `int(s)` on a plain decimal literal: optional sign, then a
non-empty digit run (underscore separators and surrounding whitespace, which
Python also accepts, are not modelled). -/
def pyIntParse? (s : String) : Option Int :=
  let p : Int × List Char :=
    match s.toList with
    | '-' :: r => (-1, r)
    | '+' :: r => (1, r)
    | r => (1, r)
  if p.2.isEmpty then none
  else if p.2.all Char.isDigit then some (p.1 * (digitsToNat p.2 : Int))
  else none

/-- Python `float(s)` on a decimal literal `[sign] digits [. digits] [e/E exp]`
(the special strings `inf`/`nan`, and surrounding whitespace, are not
modelled); the result `(num, den)` denotes `num * 10 ^ (-den)` exactly. -/
def pyFloatParse? (s : String) : Option (Int × Nat) :=
  let p : Int × List Char :=
    match s.toList with
    | '-' :: r => (-1, r)
    | '+' :: r => (1, r)
    | r => (1, r)
  let mant : List Char := match p.2.findIdx? (fun c => c == 'e' || c == 'E') with
    | some i => p.2.take i
    | none => p.2
  let expo : Option (List Char) := match p.2.findIdx? (fun c => c == 'e' || c == 'E') with
    | some i => some (p.2.drop (i + 1))
    | none => none
  let ip : List Char := match mant.findIdx? (fun c => c == '.') with
    | some i => mant.take i
    | none => mant
  let fp : List Char := match mant.findIdx? (fun c => c == '.') with
    | some i => mant.drop (i + 1)
    | none => []
  if ip.all Char.isDigit && fp.all Char.isDigit && !(ip.isEmpty && fp.isEmpty) then
    let num : Int := p.1 * ((digitsToNat ip * 10 ^ fp.length + digitsToNat fp : Nat) : Int)
    let den : Nat := fp.length
    match expo with
    | none => some (num, den)
    | some e =>
      let q : Int × List Char := match e with
        | '-' :: r => (-1, r)
        | '+' :: r => (1, r)
        | r => (1, r)
      if q.2.isEmpty || !q.2.all Char.isDigit then none
      else if q.1 ≥ 0 then
        let k := digitsToNat q.2
        if den ≤ k then some (num * (10 : Int) ^ (k - den), 0) else some (num, den - k)
      else some (num, den + digitsToNat q.2)
  else none

def isLeapYear (y : Nat) : Bool :=
  (y % 4 == 0 && y % 100 != 0) || (y % 400 == 0)

def daysInMonth (y m : Nat) : Nat :=
  if m = 2 then (if isLeapYear y then 29 else 28)
  else if m = 4 ∨ m = 6 ∨ m = 9 ∨ m = 11 then 30
  else 31

/-- Python `datetime.fromisoformat` in its pre-3.11 form:
`YYYY-MM-DD[<sep>HH[:MM[:SS]]]` with any single separator character
(fractional seconds and timezone offsets are not modelled). -/
def fromIsoFormat? (s : String) : Option Val :=
  match s.toList with
  | y1 :: y2 :: y3 :: y4 :: '-' :: m1 :: m2 :: '-' :: d1 :: d2 :: rest =>
    if [y1, y2, y3, y4, m1, m2, d1, d2].all Char.isDigit then
      let y := digitsToNat [y1, y2, y3, y4]
      let mo := digitsToNat [m1, m2]
      let d := digitsToNat [d1, d2]
      if 1 ≤ y ∧ 1 ≤ mo ∧ mo ≤ 12 ∧ 1 ≤ d ∧ d ≤ daysInMonth y mo then
        match rest with
        | [] => some (.time y mo d 0 0 0)
        | _sep :: t =>
          match t with
          | [h1, h2] =>
            if [h1, h2].all Char.isDigit ∧ digitsToNat [h1, h2] ≤ 23 then
              some (.time y mo d (digitsToNat [h1, h2]) 0 0)
            else none
          | [h1, h2, ':', i1, i2] =>
            if [h1, h2, i1, i2].all Char.isDigit ∧ digitsToNat [h1, h2] ≤ 23 ∧
                digitsToNat [i1, i2] ≤ 59 then
              some (.time y mo d (digitsToNat [h1, h2]) (digitsToNat [i1, i2]) 0)
            else none
          | [h1, h2, ':', i1, i2, ':', s1, s2] =>
            if [h1, h2, i1, i2, s1, s2].all Char.isDigit ∧ digitsToNat [h1, h2] ≤ 23 ∧
                digitsToNat [i1, i2] ≤ 59 ∧ digitsToNat [s1, s2] ≤ 59 then
              some (.time y mo d (digitsToNat [h1, h2]) (digitsToNat [i1, i2])
                (digitsToNat [s1, s2]))
            else none
          | _ => none
      else none
    else none
  | _ => none

/-- `parse_value(value, data)` from module/config/db.py: convert a string to
float, int, datetime if possible; an option-constrained row rejects values
outside its option set by returning the row's existing default. -/
def parse_value (value : Val) (data : Row) : Val :=
  let option := dget data "option" .null
  if pyTruthy option && !pyIn value option then dget data "value" .null
  else
    match value with
    | .str s =>
      if s = "" then .null
      else if s.toList.contains '.' then
        match pyFloatParse? s with
        | some q => .float q.1 q.2
        | none =>
          match fromIsoFormat? s with
          | some t => t
          | none => .str s
      else
        match pyIntParse? s with
        | some n => .int n
        | none =>
          match fromIsoFormat? s with
          | some t => t
          | none => .str s
    | v => v

example : parse_value (.str "3") [("option", .dict []), ("value", .str "3")] = .int 3 := by decide
example : parse_value (.str "3.5") [("option", .dict [])] = .float 35 1 := by decide
example : parse_value (.str "") [("option", .dict [])] = .null := by decide
example : parse_value (.str "abc") [("option", .dict [])] = .str "abc" := by decide
example : parse_value (.str "2024-01-01") [("option", .dict [])] = .time 2024 1 1 0 0 0 := by
  decide

/-- `'.'.join(parts)` (on strings over dot-free parts this also models
Python's f-string path building). -/
def joinDots (parts : List String) : String :=
  match parts with
  | [] => ""
  | h :: t => t.foldl (fun acc x => acc ++ "." ++ x) h

/-- Python `list.split(sep)` on character lists: empty segments are kept,
`"".split('.') == ['']`. -/
def splitChar (c : Char) : List Char → List (List Char)
  | [] => [[]]
  | x :: xs =>
    if x = c then [] :: splitChar c xs
    else
      match splitChar c xs with
      | [] => [[x]]
      | h :: t => (x :: h) :: t

/-- Python `s.split('.')`. -/
def splitDots (s : String) : List String :=
  (splitChar '.' s.toList).map (fun l => String.mk l)

/-- Modelled from the spec: `deep_get` lives in `module/config/utils.py`,
which is not part of the given sources. §4.1 PathAddressing: the path is a
sequence of keys split on `.`; `get` returns the default if any intermediate
key is absent or the container at that level is not a mapping. `none` stands
for "absent"; callers supply their own default via `deepGetD`. -/
def deepGet? (t : Val) (keys : List String) : Option Val :=
  match keys with
  | [] => some t
  | k :: ks =>
    match t with
    | .dict d =>
      match lookup? d k with
      | some v => deepGet? v ks
      | none => none
    | _ => none

def deepGetD (t : Val) (keys : List String) (dft : Val) : Val :=
  (deepGet? t keys).getD dft

/-- Modelled from the spec: `deep_set` from `module/config/utils.py` (not in
the given sources). §4.1: `set` creates intermediate mappings as needed. -/
def deepSet (t : Val) (keys : List String) (v : Val) : Val :=
  match keys with
  | [] => v
  | k :: ks =>
    let d : List (String × Val) := match t with | .dict d => d | _ => []
    let child : Val := match lookup? d k with
      | some c => c
      | none => .dict []
    .dict (dset d k (deepSet child ks v))

/-- Modelled from the spec: `deep_default` from `module/config/utils.py` (not
in the given sources). §4.1: `set_if_absent(mapping, path, value)`. -/
def deepDefault (t : Val) (keys : List String) (v : Val) : Val :=
  match deepGet? t keys with
  | some _ => t
  | none => deepSet t keys v

/-- `data_to_path(data)` from module/config/db.py: `<func>.<group>.<arg>`.
`str.join` raises `TypeError` on non-string components; `pyStrOf` extracts
the string (theorems needing the path restrict to string-valued fields). -/
def pyStrOf : Val → String
  | .str s => s
  | _ => ""

def data_to_path (data : Row) : String :=
  joinDots (["func", "group", "arg"].map (fun attr => pyStrOf (dget data attr (.str ""))))

/-- `request_to_query(request)` applied to a row: the conjunction of equality
tests for each of func/group/arg/lang that is present and truthy in the
request (absent fields are wildcards).  TinyDB's `where(k) == v` is false for
a document lacking `k`, hence the `lookup?` comparison. -/
def requestMatches (request : Row) (r : Row) : Bool :=
  ["func", "group", "arg", "lang"].all (fun k =>
    let v := dget request k .null
    if pyTruthy v then lookup? r k == some v else true)

/-- The supported language list `Database.lang`. -/
def langs : List String := ["zh-CN"]

/-- A schema definition: the nested mapping func → group → arg → value read
from `args.yaml`. -/
abbrev SchemaDef := List (String × List (String × List (String × Val)))

/-- The key 4-tuple of a row, as TinyDB queries see it: `none` when the field
is missing.  `_data_iter` rows always carry all four fields. -/
def key4 (r : Row) : Option Val × Option Val × Option Val × Option Val :=
  (lookup? r "func", lookup? r "group", lookup? r "arg", lookup? r "lang")

/-- `update_db`'s search condition for a draft row `d` against a stored row
`r` (all four fields are equality-tested). -/
def match4 (r d : Row) : Bool :=
  key4 r == key4 d

/-- The flattened iteration of `_data_iter`'s four nested loops:
one tuple `(func, group, arg, lang, value)` per leaf and language. -/
def leaves (args : SchemaDef) : List (String × String × String × String × Val) :=
  args.flatMap (fun fp =>
    fp.2.flatMap (fun gp =>
      gp.2.flatMap (fun ap =>
        langs.map (fun l => (fp.1, gp.1, ap.1, l, ap.2)))))

/-- The draft row `_data_iter` builds for one leaf: identity fields plus the
raw value, then `data.update(value)` when the value is a detail mapping. -/
def baseRow : String × String × String × String × Val → Row
  | (f, g, a, l, v) =>
    let d : Row := [("func", .str f), ("group", .str g), ("arg", .str a),
      ("lang", .str l), ("value", v)]
    match v with
    | .dict e => dupdate d e
    | _ => d

/-- The three candidate rows `info(data)` considers, in mutation order:
the row itself, then with `arg` replaced by `_info`, then additionally with
`group` replaced by `_info` (the in-place mutations accumulate). -/
def infoCandidates (raw : Row) : List Row :=
  let r1 := dset raw "arg" (.str "_info")
  [raw, r1, dset r1 "group" (.str "_info")]

/-- One step of the `visited`-set deduplication in `info(raw)`: keep each
candidate whose key 4-tuple is unseen; the final `reversed(out)`. -/
def infoStep (vis : List (Option Val × Option Val × Option Val × Option Val)) (raw : Row) :
    List (Option Val × Option Val × Option Val × Option Val) × List Row :=
  let s := (infoCandidates raw).foldl
    (fun (s : List (Option Val × Option Val × Option Val × Option Val) × List Row) r =>
      if key4 r ∈ s.1 then s else (key4 r :: s.1, s.2 ++ [r]))
    (vis, [])
  (s.1, s.2.reverse)

def dataIterAux (vis : List (Option Val × Option Val × Option Val × Option Val))
    (rows : List Row) :
    List (String × String × String × String × Val) →
    List (Option Val × Option Val × Option Val × Option Val) × List Row
  | [] => (vis, rows)
  | x :: xs =>
    let s := infoStep vis (baseRow x)
    dataIterAux s.1 (rows ++ s.2) xs

/-- `Database._data_iter(args)`: the full draft-row sequence generated from a
schema definition, info rows synthesized and deduplicated by a seen-set over
the key 4-tuple. -/
def _data_iter (args : SchemaDef) : List Row :=
  (dataIterAux [] [] (leaves args)).2

/-- The fresh-row defaults in `_data_merge`. -/
def defaultRowFields : Row :=
  [("func", .str ""), ("group", .str ""), ("arg", .str ""), ("lang", .str ""),
   ("name", .str ""), ("help", .str ""), ("type", .str "input"),
   ("value", .str ""), ("option", .dict [])]

/-- The `name`/`help` merge policy: the old row's value if truthy, else the
placeholder `<func.group.arg>.<attr>`. -/
def mergeLabel (old : Row) (key attr : String) : Val :=
  let v := dget old attr (.str "")
  if pyTruthy v then v else .str (key ++ "." ++ attr)

/-- The keys Python iterates over in `{k: ... for k in option}`: dict keys for
a mapping, the characters for a string (other truthy values raise `TypeError`
and are excluded by hypothesis where it matters). -/
def optionKeysOf : Val → List String
  | .dict d => d.map (fun p => p.1)
  | .str s => s.toList.map (fun c => String.mk [c])
  | _ => []

/-- `Database._data_merge(old, args)`: defaults, then the draft (`args`),
then sticky `name`/`help` from `old`, option labels resolved through
`deep_get(old, option.<k>, default=<k>)`, and `_info` rows cleared of
`type`/`value`/`option`. -/
def mergeBase (args : Row) : Row :=
  dupdate defaultRowFields args

/-- The rebuilt option mapping `{k: deep_get(old, f'option.{k}', default=k)
for k in option}`. -/
def mergeOptionVal (old : Row) (option : Val) : Val :=
  .dict ((optionKeysOf option).map
    (fun k => (k, deepGetD (.dict old) ("option" :: splitDots k) (.str k))))

def _data_merge (old args : Row) : Row :=
  let data := mergeBase args
  let key := data_to_path data
  let data := dset data "name" (mergeLabel old key "name")
  let data := dset data "help" (mergeLabel old key "help")
  let option := dget data "option" .null
  let data :=
    if pyTruthy option then dset data "option" (mergeOptionVal old option)
    else data
  if dget data "arg" .null == .str "_info" then
    dupdate data [("type", .str ""), ("value", .str ""), ("option", .dict [])]
  else data

/-- `Database.update_db()`: rebuild the store row by row from `_data_iter`,
merging each draft against the first matching row of the old store
(`res[0] if len(res) else {}`). -/
def update_db (old : List Row) (args : SchemaDef) : List Row :=
  (_data_iter args).map (fun d =>
    _data_merge ((old.find? (fun r => match4 r d)).getD []) d)

/-- The module-level `CONFIG_IMPORT` list of header lines (the triple-quoted
string, stripped and split on newlines). -/
def CONFIG_IMPORT : List String :=
  ["import datetime",
   "",
   "from module.config.argument import Argument",
   "",
   "# This file was automatically generated by module/config/db.py.",
   "# Don\x27t modify it manually.",
   "",
   "",
   "class GeneratedConfig:",
   "    \"\"\"",
   "    Auto generated configuration",
   "    \"\"\""]

/-- Modelled from the spec: `path_to_arg` lives in `module/config/utils.py`,
which is not part of the given sources; §4.6 treats the line rendering as a
deterministic function of the path. -/
def path_to_arg (p : String) : String :=
  joinDots (splitDots p) |>.toList.map (fun c => if c = '.' then '_' else c) |> String.mk

/-- Modelled from the spec: `dict_to_kv` from `module/config/utils.py` (not in
the given sources); §4.6 only requires a deterministic rendering of the
declaration data (dotted path, typed default value, optional ordered option
keys), which this provides. -/
def renderVal : Val → String
  | .null => "None"
  | .bool b => if b then "True" else "False"
  | .int n => toString n
  | .float num den => toString num ++ "e-" ++ toString den
  | .str s => "\x27" ++ s ++ "\x27"
  | .time y mo d h mi s =>
      joinDots [toString y, toString mo, toString d, toString h, toString mi, toString s]
  | .dict d => "{...}#" ++ toString d.length

def dict_to_kv (value : Val) (path : String) (optKeys : Option (List String)) : String :=
  "value=" ++ renderVal value ++ ", path=\x27" ++ path ++ "\x27" ++
    (match optKeys with
     | some ks => ", option=(" ++ joinDots ks ++ ")"
     | none => "")

/-- One generated declaration line. -/
def declLine (path : String) (value : Val) (optKeys : Option (List String)) : String :=
  "    " ++ path_to_arg path ++ " = Argument(" ++ dict_to_kv value path optKeys ++ ")"

/-- The loop state of `update_code`: the seen-sets, the (aliased!) `lines`
list, and — as proof bookkeeping mirroring the insertion order of
`visited_path` — the paths for which a declaration line was emitted. -/
structure EmitState where
  visitedPath : List String
  visitedFunc : List Val
  lines : List String
  emitted : List String
deriving Repr, DecidableEq

/-- The `group.arg` dotted path `update_code` builds per row (NOT
func-qualified). -/
def rowEmitPath (r : Row) : String :=
  pyStrOf (dget r "group" .null) ++ "." ++ pyStrOf (dget r "arg" .null)

/-- One iteration of `update_code`'s loop body. -/
def emitStep (st : EmitState) (r : Row) : EmitState :=
  let fv := dget r "func" .null
  let st :=
    if st.visitedFunc.contains fv then st
    else { st with
      lines := st.lines ++ ["", "    # Func `" ++ pyStrOf fv ++ "`"],
      visitedFunc := st.visitedFunc ++ [fv] }
  let path := rowEmitPath r
  if st.visitedPath.contains path || strContains path "_info" then st
  else
    let value := parse_value (dget r "value" .null) r
    let optKeys :=
      if pyTruthy (dget r "option" .null) then some (optionKeysOf (dget r "option" .null))
      else none
    { st with
      lines := st.lines ++ [declLine path value optKeys],
      visitedPath := st.visitedPath ++ [path],
      emitted := st.emitted ++ [path] }

/-- The body loop of `Database.update_code()`.  `configImport` is the CURRENT
value of the module-level `CONFIG_IMPORT` list: the code binds
`lines = CONFIG_IMPORT` without copying, so every `lines.append` also mutates
`CONFIG_IMPORT` itself, and the final `lines` value is both the emitted output
and the next call's starting header. -/
def update_code_state (configImport : List String) (store : List Row) : EmitState :=
  let args := store.filter (fun r => requestMatches [("lang", .str "zh-CN")] r)
  args.foldl emitStep ⟨[], [], configImport, []⟩

/-- `Database.update_code()`: the sequence of lines written to the generated
file (which is also the list object `CONFIG_IMPORT` ends up holding). -/
def update_code (configImport : List String) (store : List Row) : List String :=
  (update_code_state configImport store).lines

/-- `Database._check_config(data, is_template)`.  `rid` stands for the value
`random_id()` (from `module/config/utils.py`, not in the given sources)
returns for this call. -/
def azurStatsPath : List String := ["Alas", "DropRecord", "AzurStatsID"]

def _check_config (data : Val) (is_template : Bool) (rid : Val) : Val :=
  if is_template then deepSet data azurStatsPath .null
  else deepDefault data azurStatsPath rid

/-- `Database.update_config(config_name)`: rebuild an instance configuration
from the store's default-language rows, keeping old values, re-typing through
`parse_value`. `old` is the data read from the config file, `is_template`
is `config_name == 'template'`, and the result is what is written back. -/
def update_config (store : List Row) (old : Val) (is_template : Bool) (rid : Val) : Val :=
  let arguments := store.filter (fun r => lookup? r "lang" == some (.str "zh-CN"))
  let new := arguments.foldl
    (fun new r =>
      if dget r "group" .null == .str "_info" || dget r "arg" .null == .str "_info" then new
      else
        let path := splitDots (data_to_path r)
        let value := deepGetD old path (dget r "value" .null)
        let value := parse_value value r
        deepSet new path value)
    (.dict [])
  _check_config new is_template rid

/-- `Database.select_db(request)`: all matching rows re-nested by path. -/
def select_db (store : List Row) (request : Row) : Val :=
  (store.filter (fun r => requestMatches request r)).foldl
    (fun response r => deepSet response (splitDots (data_to_path r)) (.dict r))
    (.dict [])

/-- `Database.select_config(request)`: `select_db` plus the instance-config
subtree at the request path.  `cfg` is the loaded instance configuration
`self.config(config)`. -/
def select_config (store : List Row) (cfg : Val) (request : Row) : Val :=
  let response := select_db store request
  let parts := (["func", "group", "arg"].filterMap (fun k =>
    let v := dget request k .null
    if pyTruthy v then some (pyStrOf v) else none))
  let path := splitDots (joinDots parts)
  deepSet response path (deepGetD cfg path .null)

/-- Python `.items()` of a `Val` (raises `AttributeError` on non-dicts; the
theorems below restrict to dict-shaped trees). -/
def valItems : Val → List (String × Val)
  | .dict d => d
  | _ => []

/-- `Database.select_function(request)`: `select_db` + `select_config`, then
every non-`None` instance value overlaid under the `value` sub-key. -/
def select_function (store : List Row) (cfg : Val) (func lang : String) : Val :=
  let request : Row := [("func", .str func), ("lang", .str lang)]
  let database := select_db store request
  let config := select_config store cfg request
  (valItems config).foldl
    (fun db fp =>
      (valItems fp.2).foldl
        (fun db gp =>
          (valItems gp.2).foldl
            (fun db ap =>
              if ap.2 ≠ .null then
                deepSet db (splitDots (joinDots [fp.1, gp.1, ap.1] ++ ".value")) ap.2
              else db)
            db)
        db)
    database

/-- `Database.upsert_config(request)` restricted to its effect on the
instance configuration (the part the claims are about): resolve the schema
row at the request path, type the raw value against it, fall back to the
row's default when typing yields `None`, and write the result at the path.
Returns the updated configuration. -/
def upsert_config (store : List Row) (cfg : Val) (func group arg lang : String)
    (value : Val) : Val :=
  let request : Row := [("func", .str func), ("group", .str group), ("arg", .str arg),
    ("lang", .str lang)]
  let path := splitDots (data_to_path request)
  let dflt := deepGetD (select_db store request) path .null
  let dfltRow : Row := match dflt with | .dict d => d | _ => []
  let v := parse_value value dfltRow
  let v := if v = .null then dget dfltRow "value" .null else v
  deepSet cfg path v

/-- `Database.upsert_db(request)`: TinyDB `update(request, query)` merges the
whole request mapping into every matching row and persists. -/
def upsert_db (store : List Row) (request : Row) : List Row :=
  store.map (fun r => if requestMatches request r then dupdate r request else r)

theorem lookup?_cons (p : String × Val) (t : Row) (k : String) :
    lookup? (p :: t) k = if p.1 = k then some p.2 else lookup? t k := by
  by_cases h : p.1 = k <;> simp [lookup?, List.find?, h]

theorem lookup?_eq_none_of_not_hasKey {r : Row} {k : String} (h : hasKey r k = false) :
    lookup? r k = none := by
  induction r with
  | nil => rfl
  | cons p t ih =>
    simp only [hasKey, List.any_cons, Bool.or_eq_false_iff] at h
    rw [lookup?_cons]
    simp only [decide_eq_false_iff_not] at h
    simp [h.1, ih (by simpa [hasKey] using h.2)]

theorem lookup?_map_set_ne (r : Row) (k k' : String) (v : Val) (h : k' ≠ k) :
    lookup? (r.map (fun p => if p.1 = k then (k, v) else p)) k' = lookup? r k' := by
  induction r with
  | nil => rfl
  | cons p t ih =>
    by_cases hp : p.1 = k
    · simp only [List.map_cons, hp, if_pos rfl]
      rw [lookup?_cons, lookup?_cons, hp]
      simp [Ne.symm h, (by simpa using Ne.symm h : ¬k = k'), ih]
    · simp only [List.map_cons, if_neg hp]
      rw [lookup?_cons, lookup?_cons]
      by_cases hk : p.1 = k' <;> simp [hk, ih]

theorem lookup?_map_set_self (r : Row) (k : String) (v : Val) (h : hasKey r k = true) :
    lookup? (r.map (fun p => if p.1 = k then (k, v) else p)) k = some v := by
  induction r with
  | nil => simp [hasKey] at h
  | cons p t ih =>
    by_cases hp : p.1 = k
    · simp only [List.map_cons, hp, if_pos rfl]
      rw [lookup?_cons]
      simp
    · simp only [List.map_cons, if_neg hp]
      rw [lookup?_cons]
      simp only [hasKey, List.any_cons, Bool.or_eq_true] at h
      rcases h with h | h
      · simp [hp] at h
      · simp [hp, ih h]

theorem lookup?_append (r s : Row) (k : String) :
    lookup? (r ++ s) k = match lookup? r k with | some v => some v | none => lookup? s k := by
  induction r with
  | nil => simp [lookup?]
  | cons p t ih =>
    rw [List.cons_append, lookup?_cons, lookup?_cons]
    by_cases hp : p.1 = k <;> simp [hp, ih]

theorem lookup?_dset (r : Row) (k k' : String) (v : Val) :
    lookup? (dset r k v) k' = if k' = k then some v else lookup? r k' := by
  unfold dset
  by_cases h : hasKey r k = true
  · rw [if_pos h]
    by_cases hk : k' = k
    · subst hk; simp [lookup?_map_set_self r k' v h]
    · simp [hk, lookup?_map_set_ne r k k' v hk]
  · rw [if_neg h]
    have hn : lookup? r k = none := lookup?_eq_none_of_not_hasKey (by simpa using h)
    rw [lookup?_append]
    by_cases hk : k' = k
    · subst hk
      simp [hn, lookup?_cons]
    · rcases hf : lookup? r k' with _ | w
      · simp [lookup?_cons, Ne.symm hk, hk, lookup?]
      · simp [hf, hk]

theorem lookup?_dset_self (r : Row) (k : String) (v : Val) :
    lookup? (dset r k v) k = some v := by
  simp [lookup?_dset]

theorem lookup?_dset_ne (r : Row) (k k' : String) (v : Val) (h : k' ≠ k) :
    lookup? (dset r k v) k' = lookup? r k' := by
  simp [lookup?_dset, h]

theorem dget_dset (r : Row) (k k' : String) (v dft : Val) :
    dget (dset r k v) k' dft = if k' = k then v else dget r k' dft := by
  by_cases h : k' = k <;> simp [dget, lookup?_dset, h]

theorem hasKey_iff_lookup (r : Row) (k : String) :
    hasKey r k = (lookup? r k).isSome := by
  induction r with
  | nil => rfl
  | cons p t ih =>
    rw [lookup?_cons]
    by_cases hp : p.1 = k <;> simp [hasKey, List.any_cons, hp, ← ih, hasKey]

theorem hasKey_dset (r : Row) (k k' : String) (v : Val) :
    hasKey (dset r k v) k' = (hasKey r k' || k' == k) := by
  rw [hasKey_iff_lookup, lookup?_dset, hasKey_iff_lookup]
  by_cases hk : k' = k <;> simp [hk]

theorem dupdate_cons (r : Row) (p : String × Val) (u : Row) :
    dupdate r (p :: u) = dupdate (dset r p.1 p.2) u := rfl

theorem lookup?_dupdate_not_mem (u : Row) (r : Row) (k : String) (h : ∀ p ∈ u, p.1 ≠ k) :
    lookup? (dupdate r u) k = lookup? r k := by
  induction u generalizing r with
  | nil => rfl
  | cons p t ih =>
    rw [dupdate_cons, ih _ (fun q hq => h q (List.mem_cons_of_mem _ hq)),
      lookup?_dset_ne _ _ _ _ (fun he => h p (List.mem_cons_self _ _) he.symm)]

theorem lookup?_dupdate_mem (u : Row) (r : Row) (k : String) (v : Val)
    (hnd : (u.map Prod.fst).Nodup) (hm : (k, v) ∈ u) :
    lookup? (dupdate r u) k = some v := by
  induction u generalizing r with
  | nil => simp at hm
  | cons p t ih =>
    rw [dupdate_cons]
    rcases List.mem_cons.mp hm with he | ht
    · subst he
      have hk : ∀ q ∈ t, q.1 ≠ k := by
        intro q hq he
        simp only [List.map_cons, List.nodup_cons] at hnd
        exact hnd.1 (he ▸ List.mem_map_of_mem Prod.fst hq)
      rw [lookup?_dupdate_not_mem t _ k hk, lookup?_dset_self]
    · exact ih _ (by simpa using hnd.of_cons) ht

theorem hasKey_dupdate_mono (u : Row) (r : Row) (k : String) (h : hasKey r k = true) :
    hasKey (dupdate r u) k = true := by
  induction u generalizing r with
  | nil => exact h
  | cons p t ih => rw [dupdate_cons]; exact ih _ (by simp [hasKey_dset, h])

theorem not_hasKey_forall {r : Row} {k : String} (h : hasKey r k = false) :
    ∀ p ∈ r, p.1 ≠ k := by
  intro p hp he
  have ht : hasKey r k = true := by
    unfold hasKey
    exact List.any_eq_true.mpr ⟨p, hp, by simp [he]⟩
  rw [ht] at h
  exact absurd h (by simp)

theorem dset_eq_map {r : Row} {k : String} (h : hasKey r k = true) (v : Val) :
    dset r k v = r.map (fun p => if p.1 = k then (k, v) else p) := by
  simp [dset, h]

theorem hasKey_map_set (r : Row) (k : String) (v : Val) (j : String) :
    hasKey (r.map (fun p => if p.1 = k then (k, v) else p)) j = hasKey r j := by
  induction r with
  | nil => rfl
  | cons p t ih =>
    simp only [List.map_cons, hasKey, List.any_cons] at ih ⊢
    by_cases hp : p.1 = k
    · rw [if_pos hp]
      subst hp
      rw [ih]
    · rw [if_neg hp, ih]

theorem dset_dset_self (r : Row) (k : String) (a b : Val) :
    dset (dset r k a) k b = dset r k b := by
  by_cases h : hasKey r k = true
  · rw [dset_eq_map (by rw [dset_eq_map h a, hasKey_map_set]; exact h) b, dset_eq_map h a,
      dset_eq_map h b, List.map_map]
    apply List.map_congr_left
    intro p _
    by_cases hp : p.1 = k <;> simp [hp, Function.comp]
  · have ha : hasKey (dset r k a) k = true := by simp [hasKey_dset]
    rw [dset_eq_map ha b, show dset r k a = r ++ [(k, a)] from by simp [dset, h],
      List.map_append]
    have hid : r.map (fun p => if p.1 = k then (k, b) else p) = r := by
      rw [show r = r.map id from (List.map_id r).symm]
      rw [List.map_map]
      apply List.map_congr_left
      intro p hp
      simp [not_hasKey_forall (by simpa using h) p hp]
    rw [hid]
    simp [dset, h]

theorem dupdate_nil (r : Row) : dupdate r [] = r := rfl

/-- Whatever the `option` value set before, `_data_merge`'s `_info` clearing
(`data.update({'type': '', 'value': '', 'option': {}})`) wipes it, provided
the row already carries the three keys (rows built over `defaultRowFields`
always do). -/
theorem dupdate_clear_option (D : Row) (hT : hasKey D "type" = true)
    (hV : hasKey D "value" = true) (hO : hasKey D "option" = true) (X Y : Val) :
    dupdate (dset D "option" X)
        [("type", .str ""), ("value", .str ""), ("option", .dict [])] =
      dupdate (dset D "option" Y)
        [("type", .str ""), ("value", .str ""), ("option", .dict [])] := by
  have e : ∀ Z : Val,
      dupdate (dset D "option" Z)
          [("type", Val.str ""), ("value", Val.str ""), ("option", Val.dict [])] =
        D.map (fun p =>
          if p.1 = "option" then ("option", Val.dict [])
          else if p.1 = "type" then ("type", Val.str "")
          else if p.1 = "value" then ("value", Val.str "") else p) := by
    intro Z
    rw [dupdate_cons, dupdate_cons, dupdate_cons, dupdate_nil]
    rw [dset_eq_map hO Z]
    rw [dset_eq_map (k := "type") (by rw [hasKey_map_set]; exact hT)]
    rw [dset_eq_map (k := "value") (by rw [hasKey_map_set, hasKey_map_set]; exact hV)]
    rw [dset_eq_map (k := "option")
      (by rw [hasKey_map_set, hasKey_map_set, hasKey_map_set]; exact hO)]
    rw [List.map_map, List.map_map, List.map_map]
    apply List.map_congr_left
    intro p _
    by_cases h1 : p.1 = "option"
    · simp [Function.comp, h1]
    · by_cases h2 : p.1 = "type" <;> by_cases h3 : p.1 = "value" <;>
        simp [Function.comp, h1, h2, h3]
  rw [e X, e Y]

def rowKeys (r : Row) : List String := r.map Prod.fst

theorem rowKeys_dset (r : Row) (k : String) (v : Val) :
    rowKeys (dset r k v) = if hasKey r k then rowKeys r else rowKeys r ++ [k] := by
  by_cases h : hasKey r k = true
  · rw [dset_eq_map h, if_pos h]
    unfold rowKeys
    rw [List.map_map]
    apply List.map_congr_left
    intro p _
    by_cases hp : p.1 = k <;> simp [Function.comp, hp]
  · simp only [dset, h, if_neg, Bool.false_eq_true, if_false, rowKeys, List.map_append,
      List.map_cons, List.map_nil]

theorem nodup_rowKeys_dset {r : Row} (h : (rowKeys r).Nodup) (k : String) (v : Val) :
    (rowKeys (dset r k v)).Nodup := by
  rw [rowKeys_dset]
  by_cases hk : hasKey r k = true
  · simpa [hk]
  · have : k ∉ rowKeys r := by
      intro hm
      rcases List.mem_map.mp hm with ⟨p, hp, he⟩
      exact not_hasKey_forall (by simpa using hk) p hp he
    simp [hk, List.nodup_append, h, this]

theorem nodup_rowKeys_dupdate {r : Row} (h : (rowKeys r).Nodup) (u : Row) :
    (rowKeys (dupdate r u)).Nodup := by
  induction u generalizing r with
  | nil => exact h
  | cons p t ih => rw [dupdate_cons]; exact ih (nodup_rowKeys_dset h p.1 p.2)

theorem deepGet?_deepSet_self (ks : List String) (t v : Val) :
    deepGet? (deepSet t ks v) ks = some v := by
  induction ks generalizing t with
  | nil => rfl
  | cons k ks ih =>
    simp only [deepSet, deepGet?, lookup?_dset_self]
    exact ih _

theorem deepGet?_nil_ne (ks : List String) (h : ks ≠ []) : deepGet? (.dict []) ks = none := by
  cases ks with
  | nil => exact absurd rfl h
  | cons k t => simp [deepGet?, lookup?]

def dictFields : Val → List (String × Val)
  | .dict d => d
  | _ => []

theorem deepSet_cons_dictFields (t : Val) (k : String) (ks : List String) (v : Val) :
    deepSet t (k :: ks) v = deepSet (.dict (dictFields t)) (k :: ks) v := by
  cases t <;> rfl

theorem deepGet?_cons_dictFields (t : Val) (k : String) (ks : List String) :
    deepGet? t (k :: ks) = deepGet? (.dict (dictFields t)) (k :: ks) := by
  cases t <;> rfl

theorem deepGet?_deepSet_ne (ks1 : List String) (ks2 : List String) (t v : Val)
    (hlen : ks1.length = ks2.length) (hne : ks1 ≠ ks2) :
    deepGet? (deepSet t ks1 v) ks2 = deepGet? t ks2 := by
  induction ks1 generalizing t ks2 with
  | nil =>
    cases ks2 with
    | nil => exact absurd rfl hne
    | cons k2 t2 => simp at hlen
  | cons k ks ih =>
    cases ks2 with
    | nil => simp at hlen
    | cons k2 ks2 =>
      simp only [List.length_cons, Nat.add_right_cancel_iff] at hlen
      rw [deepSet_cons_dictFields,
        show deepGet? t (k2 :: ks2) = deepGet? (.dict (dictFields t)) (k2 :: ks2) from
          deepGet?_cons_dictFields t k2 ks2]
      by_cases hk : k2 = k
      · subst hk
        have hne2 : ks ≠ ks2 := fun he => hne (by rw [he])
        have hks2 : ks2 ≠ [] := by
          intro he
          subst he
          exact hne2 (List.length_eq_zero.mp hlen)
        simp only [deepSet, deepGet?, lookup?_dset_self]
        rcases hl : lookup? (dictFields t) k2 with _ | c <;>
          simp [ih _ _ hlen hne2, deepGet?_nil_ne _ hks2]
      · simp only [deepSet, deepGet?]
        rw [lookup?_dset_ne _ _ _ _ hk]

theorem deepGet?_foldSet_ne (ps : List (List String × Val)) (t : Val) (p : List String)
    (h : ∀ q ∈ ps, q.1 ≠ p ∧ q.1.length = p.length) :
    deepGet? (ps.foldl (fun a q => deepSet a q.1 q.2) t) p = deepGet? t p := by
  induction ps generalizing t with
  | nil => rfl
  | cons q qs ih =>
    rw [List.foldl_cons, ih _ (fun x hx => h x (List.mem_cons_of_mem _ hx)),
      deepGet?_deepSet_ne _ _ _ _ (h q (List.mem_cons_self _ _)).2
        (h q (List.mem_cons_self _ _)).1]

theorem deepGet?_foldSet_mem (ps : List (List String × Val)) (t : Val) (p : List String)
    (v : Val) (hlen : ∀ q ∈ ps, q.1.length = p.length)
    (hnd : (ps.map Prod.fst).Nodup) (hm : (p, v) ∈ ps) :
    deepGet? (ps.foldl (fun a q => deepSet a q.1 q.2) t) p = some v := by
  induction ps generalizing t with
  | nil => simp at hm
  | cons q qs ih =>
    rw [List.foldl_cons]
    rcases List.mem_cons.mp hm with he | ht
    · subst he
      simp only [List.map_cons, List.nodup_cons] at hnd
      have hno : ∀ x ∈ qs, x.1 ≠ p ∧ x.1.length = p.length := by
        intro x hx
        exact ⟨fun he2 => hnd.1 (he2 ▸ List.mem_map_of_mem Prod.fst hx),
          hlen x (List.mem_cons_of_mem _ hx)⟩
      rw [deepGet?_foldSet_ne qs _ p hno, deepGet?_deepSet_self]
    · exact ih _ (fun x hx => hlen x (List.mem_cons_of_mem _ hx))
        (by simpa using hnd.of_cons) ht

theorem dget_dset_dset_nh (D : Row) (n h dft : Val) (k : String)
    (hk1 : k ≠ "name") (hk2 : k ≠ "help") :
    dget (dset (dset D "name" n) "help" h) k dft = dget D k dft := by
  rw [dget_dset, if_neg hk2, dget_dset, if_neg hk1]

/-- The merged row's `name` is exactly the sticky-label policy applied to the
old row (later merge steps never touch `name`). -/
theorem lookup?_data_merge_name (old args : Row) :
    lookup? (_data_merge old args) "name" =
      some (mergeLabel old (data_to_path (mergeBase args)) "name") := by
  unfold _data_merge
  dsimp only
  have hclr : ∀ p ∈ ([("type", Val.str ""), ("value", Val.str ""),
      ("option", Val.dict [])] : Row), p.1 ≠ "name" := by decide
  split
  · split
    · rw [lookup?_dupdate_not_mem _ _ _ hclr,
        lookup?_dset_ne _ _ _ _ (by decide : "name" ≠ "option"),
        lookup?_dset_ne _ _ _ _ (by decide : "name" ≠ "help"), lookup?_dset_self]
    · rw [lookup?_dset_ne _ _ _ _ (by decide : "name" ≠ "option"),
        lookup?_dset_ne _ _ _ _ (by decide : "name" ≠ "help"), lookup?_dset_self]
  · split
    · rw [lookup?_dupdate_not_mem _ _ _ hclr,
        lookup?_dset_ne _ _ _ _ (by decide : "name" ≠ "help"), lookup?_dset_self]
    · rw [lookup?_dset_ne _ _ _ _ (by decide : "name" ≠ "help"), lookup?_dset_self]

theorem lookup?_data_merge_help (old args : Row) :
    lookup? (_data_merge old args) "help" =
      some (mergeLabel old (data_to_path (mergeBase args)) "help") := by
  unfold _data_merge
  dsimp only
  have hclr : ∀ p ∈ ([("type", Val.str ""), ("value", Val.str ""),
      ("option", Val.dict [])] : Row), p.1 ≠ "help" := by decide
  split
  · split
    · rw [lookup?_dupdate_not_mem _ _ _ hclr,
        lookup?_dset_ne _ _ _ _ (by decide : "help" ≠ "option"), lookup?_dset_self]
    · rw [lookup?_dset_ne _ _ _ _ (by decide : "help" ≠ "option"), lookup?_dset_self]
  · split
    · rw [lookup?_dupdate_not_mem _ _ _ hclr, lookup?_dset_self]
    · rw [lookup?_dset_self]

/-- The merge never touches the identity fields (and `type`/`value` only for
`_info` rows): any other key reads through to the draft-over-defaults base. -/
theorem lookup?_data_merge_id (old args : Row) (k : String)
    (h1 : k ≠ "name") (h2 : k ≠ "help") (h3 : k ≠ "option") (h4 : k ≠ "type")
    (h5 : k ≠ "value") :
    lookup? (_data_merge old args) k = lookup? (mergeBase args) k := by
  unfold _data_merge
  dsimp only
  have hclr : ∀ p ∈ ([("type", Val.str ""), ("value", Val.str ""),
      ("option", Val.dict [])] : Row), p.1 ≠ k := by
    intro p hp
    rcases List.mem_cons.mp hp with rfl | hp
    · exact fun he => h4 he.symm
    rcases List.mem_cons.mp hp with rfl | hp
    · exact fun he => h5 he.symm
    rcases List.mem_cons.mp hp with rfl | hp
    · exact fun he => h3 he.symm
    · simp at hp
  split
  · split
    · rw [lookup?_dupdate_not_mem _ _ _ hclr, lookup?_dset_ne _ _ _ _ h3,
        lookup?_dset_ne _ _ _ _ h2, lookup?_dset_ne _ _ _ _ h1]
    · rw [lookup?_dset_ne _ _ _ _ h3, lookup?_dset_ne _ _ _ _ h2,
        lookup?_dset_ne _ _ _ _ h1]
  · split
    · rw [lookup?_dupdate_not_mem _ _ _ hclr, lookup?_dset_ne _ _ _ _ h2,
        lookup?_dset_ne _ _ _ _ h1]
    · rw [lookup?_dset_ne _ _ _ _ h2, lookup?_dset_ne _ _ _ _ h1]

theorem key4_data_merge (old args : Row) :
    key4 (_data_merge old args) = key4 (mergeBase args) := by
  unfold key4
  rw [lookup?_data_merge_id old args "func" (by decide) (by decide) (by decide) (by decide)
      (by decide),
    lookup?_data_merge_id old args "group" (by decide) (by decide) (by decide) (by decide)
      (by decide),
    lookup?_data_merge_id old args "arg" (by decide) (by decide) (by decide) (by decide)
      (by decide),
    lookup?_data_merge_id old args "lang" (by decide) (by decide) (by decide) (by decide)
      (by decide)]

/-- The merged row's `option` field: cleared for `_info` rows, rebuilt from
the draft's option keys with old labels otherwise, untouched when the draft
declares no (truthy) option. -/
theorem lookup?_data_merge_option (old args : Row) :
    lookup? (_data_merge old args) "option" =
      if dget (mergeBase args) "arg" .null == .str "_info" then some (.dict [])
      else if pyTruthy (dget (mergeBase args) "option" .null) then
        some (mergeOptionVal old (dget (mergeBase args) "option" .null))
      else lookup? (mergeBase args) "option" := by
  unfold _data_merge
  dsimp only
  rw [dget_dset_dset_nh _ _ _ _ "option" (by decide) (by decide)]
  have hmem : (("option", Val.dict []) ∈ ([("type", Val.str ""), ("value", Val.str ""),
      ("option", Val.dict [])] : Row)) := by decide
  have hnd : ((([("type", Val.str ""), ("value", Val.str ""),
      ("option", Val.dict [])] : Row)).map Prod.fst).Nodup := by decide
  split
  · rename_i hopt
    rw [show dget (dset (dset (dset (mergeBase args) "name"
          (mergeLabel old (data_to_path (mergeBase args)) "name")) "help"
          (mergeLabel old (data_to_path (mergeBase args)) "help")) "option"
          (mergeOptionVal old (dget (mergeBase args) "option" Val.null))) "arg" Val.null =
        dget (mergeBase args) "arg" Val.null from by
      rw [dget_dset, if_neg (by decide : ¬("arg" = "option")),
        dget_dset_dset_nh _ _ _ _ "arg" (by decide) (by decide)]]
    split
    · rename_i harg
      rw [lookup?_dupdate_mem _ _ _ _ hnd hmem]
    · rename_i harg
      rw [lookup?_dset_self]
  · rename_i hopt
    rw [dget_dset_dset_nh _ _ _ _ "arg" (by decide) (by decide)]
    split
    · rename_i harg
      rw [lookup?_dupdate_mem _ _ _ _ hnd hmem]
    · rename_i harg
      rw [lookup?_dset_ne _ _ _ _ (by decide : "option" ≠ "help"),
        lookup?_dset_ne _ _ _ _ (by decide : "option" ≠ "name")]

theorem mergeLabel_def (old : Row) (key attr : String) :
    mergeLabel old key attr =
      if pyTruthy (dget old attr (.str "")) then dget old attr (.str "")
      else .str (key ++ "." ++ attr) := rfl

theorem str_append_dot_ne (key attr : String) : (key ++ "." ++ attr) ≠ "" := by
  intro h
  have h2 := congrArg String.length h
  simp only [String.length_append] at h2
  rw [show (".").length = 1 from rfl, show ("" : String).length = 0 from rfl] at h2
  omega

/-- A merged label is always truthy: either the prior (truthy) label or the
non-empty placeholder string. -/
theorem mergeLabel_truthy (old : Row) (key attr : String) :
    pyTruthy (mergeLabel old key attr) = true := by
  rw [mergeLabel_def]
  split
  · assumption
  · simp [pyTruthy, str_append_dot_ne key attr]

theorem mergeLabel_data_merge (old args : Row) (key : String) (attr : String)
    (hattr : attr = "name" ∨ attr = "help") :
    mergeLabel (_data_merge old args) key attr =
      mergeLabel old (data_to_path (mergeBase args)) attr := by
  have hv : dget (_data_merge old args) attr (.str "") =
      mergeLabel old (data_to_path (mergeBase args)) attr := by
    unfold dget
    rcases hattr with rfl | rfl
    · rw [lookup?_data_merge_name]; rfl
    · rw [lookup?_data_merge_help]; rfl
  rw [mergeLabel_def, hv, if_pos (mergeLabel_truthy old _ attr)]

/-- `optionOK v`: if `v` is truthy then it is a mapping whose keys contain no
dot (so `deep_get(old, f'option.{k}')` looks up `k` itself, one level deep). -/
def optionOK (v : Val) : Bool :=
  !pyTruthy v ||
    (match v with
     | .dict entries => entries.all (fun p => splitDots p.1 == [p.1])
     | _ => false)

theorem lookup?_map_pair (l : List String) (f : String → Val) (k : String) (hk : k ∈ l) :
    lookup? (l.map (fun k => (k, f k))) k = some (f k) := by
  induction l with
  | nil => simp at hk
  | cons a t ih =>
    rw [List.map_cons, lookup?_cons]
    rcases List.mem_cons.mp hk with rfl | ht
    · simp
    · by_cases ha : a = k
      · subst ha; simp
      · simp only [ha, if_neg, if_false]
        exact ih ht

/-- Re-merging against an already-merged row rebuilds the same option labels:
each (dot-free) key's label is looked up in the merged row's `option`, which
holds exactly the label computed from the original old row. -/
theorem deepGet?_dict_cons (d : List (String × Val)) (k : String) (ks : List String) :
    deepGet? (.dict d) (k :: ks) =
      match lookup? d k with
      | some v => deepGet? v ks
      | none => none := rfl

/-- Re-merging against an already-merged row rebuilds the same option labels:
each (dot-free) key's label is looked up in the merged row's `option`, which
holds exactly the label computed from the original old row. -/
theorem mergeOptionVal_data_merge (old args : Row)
    (hinfo : (dget (mergeBase args) "arg" .null == Val.str "_info") = false)
    (htr : pyTruthy (dget (mergeBase args) "option" .null) = true)
    (hOK : optionOK (dget (mergeBase args) "option" .null) = true) :
    mergeOptionVal (_data_merge old args) (dget (mergeBase args) "option" .null) =
      mergeOptionVal old (dget (mergeBase args) "option" .null) := by
  cases hd : dget (mergeBase args) "option" Val.null with
  | null => rw [hd] at htr; simp [pyTruthy] at htr
  | bool b => rw [hd] at hOK htr; simp [optionOK, htr] at hOK
  | int n => rw [hd] at hOK htr; simp [optionOK, htr] at hOK
  | float a b => rw [hd] at hOK htr; simp [optionOK, htr] at hOK
  | str s => rw [hd] at hOK htr; simp [optionOK, htr] at hOK
  | time y mo dd hh mi sec => rw [hd] at hOK htr; simp [optionOK, htr] at hOK
  | dict entries =>
    rw [hd] at hOK htr
    have hOK2 : ∀ (a : String) (b : Val), (a, b) ∈ entries → splitDots a = [a] := by
      simpa [optionOK, htr] using hOK
    have hdf : ∀ k ∈ entries.map Prod.fst, splitDots k = [k] := by
      intro k hk
      rcases List.mem_map.mp hk with ⟨p, hp, rfl⟩
      exact hOK2 p.1 p.2 hp
    have hMopt : lookup? (_data_merge old args) "option" =
        some (mergeOptionVal old (.dict entries)) := by
      rw [lookup?_data_merge_option, hd, if_neg (by simp [hinfo]), if_pos htr]
    unfold mergeOptionVal optionKeysOf
    congr 1
    apply List.map_congr_left
    intro k hk
    have hsplit := hdf k hk
    simp only [hsplit]
    rw [show deepGetD (Val.dict (_data_merge old args)) ["option", k] (Val.str k) =
        deepGetD (mergeOptionVal old (Val.dict entries)) [k] (Val.str k) from by
      unfold deepGetD
      rw [deepGet?_dict_cons, hMopt]]
    unfold mergeOptionVal optionKeysOf deepGetD
    rw [deepGet?_dict_cons, lookup?_map_pair _ _ k hk]
    simp only [deepGet?, Option.getD_some, hsplit]

theorem hasKey_mergeBase (args : Row) (k : String) (h : hasKey defaultRowFields k = true) :
    hasKey (mergeBase args) k = true :=
  hasKey_dupdate_mono _ _ _ h

/-- Proof view of `_data_merge`: the parts that depend on the old row are the
two labels and the rebuilt option value; everything else is a function of the
draft alone. -/
def mergeCore (args : Row) (n h optv : Val) : Row :=
  let base := mergeBase args
  let data := dset (dset base "name" n) "help" h
  let data :=
    if pyTruthy (dget base "option" .null) then dset data "option" optv else data
  if dget base "arg" .null == .str "_info" then
    dupdate data [("type", .str ""), ("value", .str ""), ("option", .dict [])]
  else data

theorem _data_merge_eq_core (old args : Row) :
    _data_merge old args =
      mergeCore args (mergeLabel old (data_to_path (mergeBase args)) "name")
        (mergeLabel old (data_to_path (mergeBase args)) "help")
        (mergeOptionVal old (dget (mergeBase args) "option" .null)) := by
  unfold _data_merge mergeCore
  dsimp only
  rw [dget_dset_dset_nh _ _ _ _ "option" (by decide) (by decide)]
  split
  · rw [show dget (dset (dset (dset (mergeBase args) "name"
        (mergeLabel old (data_to_path (mergeBase args)) "name")) "help"
        (mergeLabel old (data_to_path (mergeBase args)) "help")) "option"
        (mergeOptionVal old (dget (mergeBase args) "option" Val.null))) "arg" Val.null =
        dget (mergeBase args) "arg" Val.null from by
      rw [dget_dset, if_neg (by decide : ¬("arg" = "option")),
        dget_dset_dset_nh _ _ _ _ "arg" (by decide) (by decide)]]
  · rw [dget_dset_dset_nh _ _ _ _ "arg" (by decide) (by decide)]

/-- Merging a draft against its own previous merge result changes nothing,
provided the draft's option value (if truthy) is a mapping with dot-free
keys. -/
theorem data_merge_idem (old args : Row)
    (hOK : optionOK (dget (mergeBase args) "option" .null) = true) :
    _data_merge (_data_merge old args) args = _data_merge old args := by
  conv_lhs => rw [_data_merge_eq_core]
  rw [mergeLabel_data_merge old args _ "name" (Or.inl rfl),
    mergeLabel_data_merge old args _ "help" (Or.inr rfl)]
  conv_rhs => rw [_data_merge_eq_core old args]
  unfold mergeCore
  dsimp only
  split
  · split
    · exact dupdate_clear_option _
        (by rw [hasKey_dset, hasKey_dset]
            simp [hasKey_mergeBase args "type" (by decide)])
        (by rw [hasKey_dset, hasKey_dset]
            simp [hasKey_mergeBase args "value" (by decide)])
        (by rw [hasKey_dset, hasKey_dset]
            simp [hasKey_mergeBase args "option" (by decide)])
        _ _
    · rfl
  · rename_i hinfo
    split
    · rename_i htr
      rw [mergeOptionVal_data_merge old args (by simpa using hinfo) htr hOK]
    · rfl

/-- The key 4-tuple with `arg` replaced by the `_info` sentinel. -/
def argInfoK : Option Val × Option Val × Option Val × Option Val →
    Option Val × Option Val × Option Val × Option Val
  | (f, g, _, l) => (f, g, some (.str "_info"), l)

/-- The key 4-tuple with `group` and `arg` replaced by the `_info` sentinel. -/
def funcInfoK : Option Val × Option Val × Option Val × Option Val →
    Option Val × Option Val × Option Val × Option Val
  | (f, _, _, l) => (f, some (.str "_info"), some (.str "_info"), l)

theorem key4_dset_arg (r : Row) :
    key4 (dset r "arg" (.str "_info")) = argInfoK (key4 r) := by
  unfold key4 argInfoK
  rw [lookup?_dset_ne _ _ _ _ (by decide : "func" ≠ "arg"),
    lookup?_dset_ne _ _ _ _ (by decide : "group" ≠ "arg"), lookup?_dset_self,
    lookup?_dset_ne _ _ _ _ (by decide : "lang" ≠ "arg")]

theorem key4_dset_group_arg (r : Row) :
    key4 (dset (dset r "arg" (.str "_info")) "group" (.str "_info")) =
      funcInfoK (key4 r) := by
  unfold key4 funcInfoK
  rw [lookup?_dset_ne _ _ _ _ (by decide : "func" ≠ "group"), lookup?_dset_self,
    lookup?_dset_ne _ _ _ _ (by decide : "arg" ≠ "group"), lookup?_dset_self,
    lookup?_dset_ne _ _ _ _ (by decide : "lang" ≠ "group"),
    lookup?_dset_ne _ _ _ _ (by decide : "func" ≠ "arg"),
    lookup?_dset_ne _ _ _ _ (by decide : "lang" ≠ "arg")]

theorem argInfoK_argInfoK (t : Option Val × Option Val × Option Val × Option Val) :
    argInfoK (argInfoK t) = argInfoK t := rfl

theorem funcInfoK_argInfoK (t : Option Val × Option Val × Option Val × Option Val) :
    funcInfoK (argInfoK t) = funcInfoK t := rfl

theorem argInfoK_funcInfoK (t : Option Val × Option Val × Option Val × Option Val) :
    argInfoK (funcInfoK t) = funcInfoK t := rfl

theorem funcInfoK_funcInfoK (t : Option Val × Option Val × Option Val × Option Val) :
    funcInfoK (funcInfoK t) = funcInfoK t := rfl

/-- Well-formedness of a draft row: distinct keys and the four identity
fields present (every row `_data_iter` yields satisfies this). -/
def rowOKb (r : Row) : Bool :=
  decide ((rowKeys r).Nodup) && hasKey r "func" && hasKey r "group" &&
    hasKey r "arg" && hasKey r "lang"

theorem rowOKb_dset {r : Row} (h : rowOKb r = true) (k : String) (v : Val) :
    rowOKb (dset r k v) = true := by
  simp only [rowOKb, Bool.and_eq_true, decide_eq_true_eq] at h ⊢
  refine ⟨⟨⟨⟨nodup_rowKeys_dset h.1.1.1.1 k v, ?_⟩, ?_⟩, ?_⟩, ?_⟩ <;>
    simp [hasKey_dset, h.1.1.1.2, h.1.1.2, h.1.2, h.2]

theorem rowOKb_baseRow (x : String × String × String × String × Val) :
    rowOKb (baseRow x) = true := by
  obtain ⟨f, g, a, l, v⟩ := x
  have hbase : rowOKb ([("func", Val.str f), ("group", Val.str g), ("arg", Val.str a),
      ("lang", Val.str l), ("value", v)] : Row) = true := by
    simp only [rowOKb, Bool.and_eq_true, decide_eq_true_eq]
    refine ⟨⟨⟨⟨?_, ?_⟩, ?_⟩, ?_⟩, ?_⟩ <;> simp [rowKeys, hasKey]
  unfold baseRow
  cases v with
  | dict e =>
    simp only [rowOKb, Bool.and_eq_true, decide_eq_true_eq] at hbase ⊢
    refine ⟨⟨⟨⟨?_, ?_⟩, ?_⟩, ?_⟩, ?_⟩
    · exact nodup_rowKeys_dupdate hbase.1.1.1.1 e
    · exact hasKey_dupdate_mono _ _ _ hbase.1.1.1.2
    · exact hasKey_dupdate_mono _ _ _ hbase.1.1.2
    · exact hasKey_dupdate_mono _ _ _ hbase.1.2
    · exact hasKey_dupdate_mono _ _ _ hbase.2
  | null => exact hbase
  | bool b => exact hbase
  | int n => exact hbase
  | float a2 b2 => exact hbase
  | str s => exact hbase
  | time y mo d h mi s => exact hbase

/-- Specification of the seen-set fold inside `infoStep`: it appends exactly
the candidates whose key is new, pushes those keys, and afterwards every
candidate's key is in the seen-set. -/
theorem dedup_fold_spec (cands : List Row)
    (vis : List (Option Val × Option Val × Option Val × Option Val)) (out0 : List Row) :
    ∃ extra : List Row,
      (cands.foldl
          (fun (s : List (Option Val × Option Val × Option Val × Option Val) × List Row) r =>
            if key4 r ∈ s.1 then s else (key4 r :: s.1, s.2 ++ [r]))
          (vis, out0)).2 = out0 ++ extra ∧
      (cands.foldl
          (fun (s : List (Option Val × Option Val × Option Val × Option Val) × List Row) r =>
            if key4 r ∈ s.1 then s else (key4 r :: s.1, s.2 ++ [r]))
          (vis, out0)).1 = (extra.map key4).reverse ++ vis ∧
      (extra.map key4).Nodup ∧
      (∀ r ∈ extra, key4 r ∉ vis) ∧
      (∀ r ∈ extra, r ∈ cands) ∧
      (∀ c ∈ cands, key4 c ∈
        (cands.foldl
          (fun (s : List (Option Val × Option Val × Option Val × Option Val) × List Row) r =>
            if key4 r ∈ s.1 then s else (key4 r :: s.1, s.2 ++ [r]))
          (vis, out0)).1) := by
  induction cands generalizing vis out0 with
  | nil => exact ⟨[], by simp⟩
  | cons c cs ih =>
    rw [List.foldl_cons]
    by_cases hc : key4 c ∈ vis
    · rw [if_pos hc]
      obtain ⟨extra, h1, h2, h3, h4, h5, h6⟩ := ih vis out0
      refine ⟨extra, h1, h2, h3, h4, fun r hr => List.mem_cons_of_mem _ (h5 r hr), ?_⟩
      intro c2 hc2
      rcases List.mem_cons.mp hc2 with rfl | hcs
      · rw [h2]; exact List.mem_append_right _ hc
      · exact h6 c2 hcs
    · rw [if_neg hc]
      obtain ⟨extra, h1, h2, h3, h4, h5, h6⟩ := ih (key4 c :: vis) (out0 ++ [c])
      refine ⟨c :: extra, ?_, ?_, ?_, ?_, ?_, ?_⟩
      · rw [h1, List.append_assoc]; rfl
      · rw [h2, List.map_cons, List.reverse_cons, List.append_assoc]; rfl
      · rw [List.map_cons, List.nodup_cons]
        exact ⟨fun hm => by
          rcases List.mem_map.mp hm with ⟨r, hr, he⟩
          exact (h4 r hr) (he ▸ List.mem_cons_self _ _), h3⟩
      · intro r hr
        rcases List.mem_cons.mp hr with rfl | hrx
        · exact hc
        · exact fun hm => (h4 r hrx) (List.mem_cons_of_mem _ hm)
      · intro r hr
        rcases List.mem_cons.mp hr with rfl | hrx
        · exact List.mem_cons_self _ _
        · exact List.mem_cons_of_mem _ (h5 r hrx)
      · intro c2 hc2
        rcases List.mem_cons.mp hc2 with rfl | hcs
        · rw [h2]
          exact List.mem_append_right _ (List.mem_cons_self _ _)
        · exact h6 c2 hcs

theorem infoStep_spec (vis : List (Option Val × Option Val × Option Val × Option Val))
    (raw : Row) :
    (infoStep vis raw).1 = ((infoStep vis raw).2.map key4) ++ vis ∧
    ((infoStep vis raw).2.map key4).Nodup ∧
    (∀ r ∈ (infoStep vis raw).2, key4 r ∉ vis) ∧
    (∀ r ∈ (infoStep vis raw).2, r ∈ infoCandidates raw) ∧
    (∀ c ∈ infoCandidates raw, key4 c ∈ (infoStep vis raw).1) := by
  obtain ⟨extra, h1, h2, h3, h4, h5, h6⟩ := dedup_fold_spec (infoCandidates raw) vis []
  have hstep : infoStep vis raw =
      ((extra.map key4).reverse ++ vis, extra.reverse) := by
    unfold infoStep
    rw [show (infoCandidates raw).foldl
        (fun (s : List (Option Val × Option Val × Option Val × Option Val) × List Row) r =>
          if key4 r ∈ s.1 then s else (key4 r :: s.1, s.2 ++ [r])) (vis, []) =
        (((infoCandidates raw).foldl
          (fun (s : List (Option Val × Option Val × Option Val × Option Val) × List Row) r =>
            if key4 r ∈ s.1 then s else (key4 r :: s.1, s.2 ++ [r])) (vis, [])).1,
         ((infoCandidates raw).foldl
          (fun (s : List (Option Val × Option Val × Option Val × Option Val) × List Row) r =>
            if key4 r ∈ s.1 then s else (key4 r :: s.1, s.2 ++ [r])) (vis, [])).2) from rfl,
      h2, h1]
    simp
  rw [hstep]
  simp only [List.map_reverse]
  refine ⟨by simp, by simpa using h3, ?_, ?_, ?_⟩
  · intro r hr
    exact h4 r (List.mem_reverse.mp hr)
  · intro r hr
    exact h5 r (List.mem_reverse.mp hr)
  · intro c hc
    have := h6 c hc
    rw [h2] at this
    simpa using this

theorem infoCandidates_closure (raw : Row) :
    ∀ c ∈ infoCandidates raw,
      argInfoK (key4 c) ∈ (infoCandidates raw).map key4 ∧
      funcInfoK (key4 c) ∈ (infoCandidates raw).map key4 := by
  intro c hc
  have h1 : key4 (dset raw "arg" (.str "_info")) = argInfoK (key4 raw) :=
    key4_dset_arg raw
  have h2 : key4 (dset (dset raw "arg" (.str "_info")) "group" (.str "_info")) =
      funcInfoK (key4 raw) := key4_dset_group_arg raw
  simp only [infoCandidates, List.mem_cons, List.mem_singleton, List.map_cons,
    List.map_nil] at hc ⊢
  rcases hc with rfl | rfl | rfl | h
  · exact ⟨Or.inr (Or.inl h1.symm), Or.inr (Or.inr (Or.inl h2.symm))⟩
  · rw [h1, argInfoK_argInfoK, funcInfoK_argInfoK]
    exact ⟨Or.inr (Or.inl (h1 ▸ rfl)), Or.inr (Or.inr (Or.inl (h2 ▸ rfl)))⟩
  · rw [h2, argInfoK_funcInfoK, funcInfoK_funcInfoK]
    exact ⟨Or.inr (Or.inr (Or.inl (h2 ▸ rfl))), Or.inr (Or.inr (Or.inl (h2 ▸ rfl)))⟩
  · exact absurd h (by simp)

theorem infoCandidates_rowOK (raw : Row) (h : rowOKb raw = true) :
    ∀ c ∈ infoCandidates raw, rowOKb c = true := by
  intro c hc
  simp only [infoCandidates, List.mem_cons, List.mem_singleton] at hc
  rcases hc with rfl | rfl | rfl | hf
  · exact h
  · exact rowOKb_dset h _ _
  · exact rowOKb_dset (rowOKb_dset h _ _) _ _
  · exact absurd hf (by simp)

/-- The running invariant of `_data_iter`'s walk: the seen-set is exactly the
key set of the yielded rows, yielded keys are pairwise distinct, every yielded
row's arg-level and func-level `_info` keys have been yielded, and every
yielded row is well-formed. -/
theorem dataIterAux_spec (xs : List (String × String × String × String × Val))
    (vis : List (Option Val × Option Val × Option Val × Option Val)) (rows : List Row)
    (hv : ∀ t, t ∈ vis ↔ t ∈ rows.map key4)
    (hnd : (rows.map key4).Nodup)
    (hcl : ∀ r ∈ rows, argInfoK (key4 r) ∈ vis ∧ funcInfoK (key4 r) ∈ vis)
    (hok : ∀ r ∈ rows, rowOKb r = true) :
    (∀ t, t ∈ (dataIterAux vis rows xs).1 ↔ t ∈ (dataIterAux vis rows xs).2.map key4) ∧
    ((dataIterAux vis rows xs).2.map key4).Nodup ∧
    (∀ r ∈ (dataIterAux vis rows xs).2,
      argInfoK (key4 r) ∈ (dataIterAux vis rows xs).1 ∧
      funcInfoK (key4 r) ∈ (dataIterAux vis rows xs).1) ∧
    (∀ r ∈ (dataIterAux vis rows xs).2, rowOKb r = true) := by
  induction xs generalizing vis rows with
  | nil => exact ⟨hv, hnd, hcl, hok⟩
  | cons x xs ih =>
    obtain ⟨hs1, hs2, hs3, hs4, hs5⟩ := infoStep_spec vis (baseRow x)
    have hnew := (infoStep vis (baseRow x)).2
    unfold dataIterAux
    have hv2 : ∀ t, t ∈ (infoStep vis (baseRow x)).1 ↔
        t ∈ (rows ++ (infoStep vis (baseRow x)).2).map key4 := by
      intro t
      rw [hs1, List.map_append]
      constructor
      · intro ht
        rcases List.mem_append.mp ht with h | h
        · exact List.mem_append_right _ h
        · exact List.mem_append_left _ ((hv t).mp h)
      · intro ht
        rcases List.mem_append.mp ht with h | h
        · exact List.mem_append_right _ ((hv t).mpr h)
        · exact List.mem_append_left _ h
    have hnd2 : ((rows ++ (infoStep vis (baseRow x)).2).map key4).Nodup := by
      rw [List.map_append, List.nodup_append]
      refine ⟨hnd, hs2, ?_⟩
      intro t ht ht2
      rcases List.mem_map.mp ht2 with ⟨r, hr, rfl⟩
      exact hs3 r hr ((hv _).mpr ht)
    have hcl2 : ∀ r ∈ rows ++ (infoStep vis (baseRow x)).2,
        argInfoK (key4 r) ∈ (infoStep vis (baseRow x)).1 ∧
        funcInfoK (key4 r) ∈ (infoStep vis (baseRow x)).1 := by
      intro r hr
      rcases List.mem_append.mp hr with h | h
      · rw [hs1]
        exact ⟨List.mem_append_right _ (hcl r h).1, List.mem_append_right _ (hcl r h).2⟩
      · have hcand := hs4 r h
        obtain ⟨ha, hf⟩ := infoCandidates_closure (baseRow x) r hcand
        constructor
        · rcases List.mem_map.mp ha with ⟨c, hcm, he⟩
          exact he ▸ hs5 c hcm
        · rcases List.mem_map.mp hf with ⟨c, hcm, he⟩
          exact he ▸ hs5 c hcm
    have hok2 : ∀ r ∈ rows ++ (infoStep vis (baseRow x)).2, rowOKb r = true := by
      intro r hr
      rcases List.mem_append.mp hr with h | h
      · exact hok r h
      · exact infoCandidates_rowOK (baseRow x) (rowOKb_baseRow x) r (hs4 r h)
    exact ih (infoStep vis (baseRow x)).1 (rows ++ (infoStep vis (baseRow x)).2)
      hv2 hnd2 hcl2 hok2

theorem _data_iter_spec (args : SchemaDef) :
    ((_data_iter args).map key4).Nodup ∧
    (∀ r ∈ _data_iter args,
      argInfoK (key4 r) ∈ (_data_iter args).map key4 ∧
      funcInfoK (key4 r) ∈ (_data_iter args).map key4) ∧
    (∀ r ∈ _data_iter args, rowOKb r = true) := by
  obtain ⟨hv, hnd, hcl, hok⟩ := dataIterAux_spec (leaves args) [] []
    (by simp) (by simp) (by simp) (by simp)
  refine ⟨hnd, ?_, hok⟩
  intro r hr
  exact ⟨(hv _).mp (hcl r hr).1, (hv _).mp (hcl r hr).2⟩

theorem mem_of_lookup? {r : Row} {k : String} {v : Val} (h : lookup? r k = some v) :
    (k, v) ∈ r := by
  unfold lookup? at h
  rcases hf : r.find? (fun p => decide (p.1 = k)) with _ | p
  · rw [hf] at h; simp at h
  · rw [hf] at h
    have h2 : p.2 = v := by simpa using h
    have hm := List.mem_of_find?_eq_some hf
    have hp := List.find?_some hf
    simp only [decide_eq_true_eq] at hp
    have : p = (k, v) := Prod.ext hp h2
    exact this ▸ hm

theorem hasKey_some {r : Row} {k : String} (h : hasKey r k = true) :
    ∃ v, lookup? r k = some v := by
  rw [hasKey_iff_lookup] at h
  rcases hl : lookup? r k with _ | v
  · rw [hl] at h; simp at h
  · exact ⟨v, rfl⟩

theorem lookup?_mergeBase {d : Row} (hok : rowOKb d = true) (k : String)
    (hk : hasKey d k = true) :
    lookup? (mergeBase d) k = lookup? d k := by
  simp only [rowOKb, Bool.and_eq_true, decide_eq_true_eq] at hok
  obtain ⟨v, hv⟩ := hasKey_some hk
  rw [hv]
  exact lookup?_dupdate_mem d defaultRowFields k v hok.1.1.1.1 (mem_of_lookup? hv)

theorem key4_mergeBase {d : Row} (hok : rowOKb d = true) :
    key4 (mergeBase d) = key4 d := by
  have h4 := hok
  simp only [rowOKb, Bool.and_eq_true, decide_eq_true_eq] at h4
  unfold key4
  rw [lookup?_mergeBase hok "func" h4.1.1.1.2, lookup?_mergeBase hok "group" h4.1.1.2,
    lookup?_mergeBase hok "arg" h4.1.2, lookup?_mergeBase hok "lang" h4.2]

/-- In a store whose rows have pairwise-distinct key 4-tuples matching a draft
list, the first match for a draft's query is exactly the row built from that
draft. -/
theorem find?_map_match4 (drafts : List Row) (g : Row → Row)
    (hg : ∀ d ∈ drafts, key4 (g d) = key4 d)
    (hnd : (drafts.map key4).Nodup)
    (d : Row) (hd : d ∈ drafts) :
    (drafts.map g).find? (fun r => match4 r d) = some (g d) := by
  induction drafts with
  | nil => simp at hd
  | cons d0 ds ih =>
    rw [List.map_cons, List.find?_cons]
    rcases List.mem_cons.mp hd with rfl | hds
    · have hm : match4 (g d) d = true := by
        simp [match4, hg d (List.mem_cons_self _ _)]
      rw [hm]
    · simp only [List.map_cons, List.nodup_cons] at hnd
      have hne : key4 d0 ≠ key4 d := by
        intro he
        exact hnd.1 (he ▸ List.mem_map_of_mem key4 hds)
      have hm : match4 (g d0) d = false := by
        simp [match4, hg d0 (List.mem_cons_self _ _), hne]
      rw [hm]
      exact ih (fun x hx => hg x (List.mem_cons_of_mem _ hx)) hnd.2 hds

/-- The draft-level hypothesis under which migration is idempotent: every
draft row's option value, when truthy, is a mapping with dot-free keys. -/
def draftsOptionOK (args : SchemaDef) : Bool :=
  (_data_iter args).all (fun d => optionOK (dget (mergeBase d) "option" .null))

theorem update_db_eq_map (old : List Row) (args : SchemaDef) :
    update_db old args = (_data_iter args).map (fun d =>
      _data_merge ((old.find? (fun r => match4 r d)).getD []) d) := rfl

theorem update_db_idem_aux (old : List Row) (args : SchemaDef)
    (h : draftsOptionOK args = true) :
    update_db (update_db old args) args = update_db old args := by
  obtain ⟨hnd, _, hok⟩ := _data_iter_spec args
  rw [update_db_eq_map old args, update_db_eq_map]
  apply List.map_congr_left
  intro d hd
  rw [find?_map_match4 (_data_iter args)
    (fun d => _data_merge ((old.find? (fun r => match4 r d)).getD []) d)
    (fun d2 hd2 => (key4_data_merge _ d2).trans (key4_mergeBase (hok d2 hd2)))
    hnd d hd]
  exact data_merge_idem _ d
    ((List.all_eq_true.mp h) d hd)

theorem update_db_map_key4 (old : List Row) (args : SchemaDef) :
    (update_db old args).map key4 = (_data_iter args).map key4 := by
  rw [update_db_eq_map, List.map_map]
  apply List.map_congr_left
  intro d hd
  exact (key4_data_merge _ d).trans (key4_mergeBase ((_data_iter_spec args).2.2 d hd))

theorem countP_le_one_of_nodup {α : Type} (p : α → Bool) (ks : List α)
    (hnd : ks.Nodup)
    (huniq : ∀ a ∈ ks, ∀ b ∈ ks, p a = true → p b = true → a = b) :
    ks.countP p ≤ 1 := by
  induction ks with
  | nil => simp
  | cons k ks ih =>
    rw [List.nodup_cons] at hnd
    rw [List.countP_cons]
    rcases hpk : p k with _ | _
    · simp only [Bool.false_eq_true, if_false, Nat.add_zero]
      exact ih hnd.2 (fun a ha b hb hpa hpb =>
        huniq a (List.mem_cons_of_mem _ ha) b (List.mem_cons_of_mem _ hb) hpa hpb)
    · simp only [if_pos]
      have hz : ks.countP p = 0 := by
        rw [List.countP_eq_zero]
        intro a ha hpa
        exact hnd.1 ((huniq a (List.mem_cons_of_mem _ ha) k (List.mem_cons_self _ _)
          hpa hpk) ▸ ha)
      omega

theorem countP_eq_one_of_nodup {α : Type} (p : α → Bool) (ks : List α)
    (hnd : ks.Nodup) (k0 : α) (hk0 : k0 ∈ ks) (hp : p k0 = true)
    (huniq : ∀ k ∈ ks, p k = true → k = k0) :
    ks.countP p = 1 := by
  induction ks with
  | nil => simp at hk0
  | cons k ks ih =>
    rw [List.nodup_cons] at hnd
    rcases List.mem_cons.mp hk0 with rfl | hm
    · rw [List.countP_cons, hp]
      have hz : ks.countP p = 0 := by
        rw [List.countP_eq_zero]
        intro a ha hpa
        exact hnd.1 ((huniq a (List.mem_cons_of_mem _ ha) hpa) ▸ ha)
      rw [hz]
      simp
    · have hk : p k = false := by
        rcases hpk : p k with _ | _
        · rfl
        · exact absurd ((huniq k (List.mem_cons_self _ _) hpk) ▸ hm) hnd.1
      rw [List.countP_cons, hk]
      simp only [if_neg, Bool.false_eq_true, if_false, Nat.add_zero]
      exact ih hnd.2 hm (fun a ha hpa => huniq a (List.mem_cons_of_mem _ ha) hpa)

theorem splitChar_no_sep (c : Char) (l : List Char) (h : c ∉ l) :
    splitChar c l = [l] := by
  induction l with
  | nil => rfl
  | cons x xs ih =>
    rw [List.mem_cons, not_or] at h
    unfold splitChar
    rw [if_neg (fun he => h.1 he.symm), ih h.2]

theorem splitChar_append (c : Char) (l1 l2 : List Char) (h : c ∉ l1) :
    splitChar c (l1 ++ c :: l2) = l1 :: splitChar c l2 := by
  induction l1 with
  | nil =>
    show splitChar c (c :: l2) = [] :: splitChar c l2
    rw [show splitChar c (c :: l2) =
        if c = c then [] :: splitChar c l2
        else match splitChar c l2 with
          | [] => [[c]]
          | h :: t => (c :: h) :: t from rfl,
      if_pos rfl]
  | cons x xs ih =>
    rw [List.mem_cons, not_or] at h
    rw [List.cons_append]
    rw [show splitChar c (x :: (xs ++ c :: l2)) =
        if x = c then [] :: splitChar c (xs ++ c :: l2)
        else match splitChar c (xs ++ c :: l2) with
          | [] => [[x]]
          | h :: t => (x :: h) :: t from rfl]
    rw [if_neg (fun he => h.1 he.symm), ih h.2]

theorem toList_append (s t : String) : (s ++ t).toList = s.toList ++ t.toList := rfl

theorem mk_toList (s : String) : String.mk s.toList = s := rfl

theorem foldl_join_toList (p : String) (xs : List String) :
    (xs.foldl (fun acc x => acc ++ "." ++ x) p).toList =
      p.toList ++ xs.flatMap (fun x => '.' :: x.toList) := by
  induction xs generalizing p with
  | nil => simp
  | cons x xs ih =>
    rw [List.foldl_cons, ih, List.flatMap_cons]
    simp [toList_append, List.append_assoc]

theorem splitChar_parts (parts : List (List Char)) (l0 : List Char) (h0 : '.' ∉ l0)
    (h : ∀ l ∈ parts, '.' ∉ l) :
    splitChar '.' (l0 ++ parts.flatMap (fun l => '.' :: l)) = l0 :: parts := by
  induction parts generalizing l0 with
  | nil => simpa using splitChar_no_sep '.' l0 h0
  | cons l1 rest ih =>
    rw [List.flatMap_cons,
      show ('.' :: l1) ++ rest.flatMap (fun l => '.' :: l) =
        '.' :: (l1 ++ rest.flatMap (fun l => '.' :: l)) from rfl,
      splitChar_append '.' l0 _ h0,
      ih l1 (h l1 (List.mem_cons_self _ _)) (fun l hl => h l (List.mem_cons_of_mem _ hl))]

/-- Splitting a dot-joined list of dot-free parts recovers the parts (the
round trip `data_to_path` → `deep_set`/`deep_get` keys rely on). -/
theorem splitDots_joinDots (parts : List String) (hne : parts ≠ [])
    (h : ∀ p ∈ parts, '.' ∉ p.toList) :
    splitDots (joinDots parts) = parts := by
  cases parts with
  | nil => exact absurd rfl hne
  | cons p rest =>
    unfold joinDots splitDots
    rw [foldl_join_toList,
      show rest.flatMap (fun x => '.' :: x.toList) =
        (rest.map String.toList).flatMap (fun l => '.' :: l) from by
          rw [List.flatMap_map],
      splitChar_parts (rest.map String.toList) p.toList
        (h p (List.mem_cons_self _ _))
        (fun l hl => by
          rcases List.mem_map.mp hl with ⟨s, hs, rfl⟩
          exact h s (List.mem_cons_of_mem _ hs)),
      List.map_cons, mk_toList, List.map_map]
    congr 1
    rw [show (fun l => String.mk l) ∘ String.toList = id from funext fun s => mk_toList s,
      List.map_id]

theorem str_ext {s t : String} (h : s.toList = t.toList) : s = t := by
  cases s with
  | mk d =>
    cases t with
    | mk e => exact congrArg String.mk h

theorem joinDots_append_value (f g a : String) :
    joinDots [f, g, a] ++ ".value" = joinDots [f, g, a, "value"] := by
  apply str_ext
  unfold joinDots
  rw [toList_append, foldl_join_toList, foldl_join_toList]
  simp [List.flatMap_cons]

theorem data_to_path_eq (r : Row) (f g a : String)
    (hf : lookup? r "func" = some (.str f)) (hg : lookup? r "group" = some (.str g))
    (ha : lookup? r "arg" = some (.str a)) :
    data_to_path r = joinDots [f, g, a] := by
  unfold data_to_path
  simp only [List.map_cons, List.map_nil]
  unfold dget
  rw [hf, hg, ha]
  rfl

/-- C3: `parse_value` with an empty option set maps `"3"` to the integer 3,
`"3.5"` to the float 3.5 (represented as `35·10⁻¹`), `""` to null, `"abc"` to
the verbatim string, and `"2024-01-01"` to a timestamp; and for every row
with a non-empty option set, a raw value not contained in the option set
returns the row's existing default value unchanged. -/
theorem parse_value_typing :
    parse_value (.str "3") [("option", .dict []), ("value", .null)] = .int 3 ∧
    parse_value (.str "3.5") [("option", .dict []), ("value", .null)] = .float 35 1 ∧
    parse_value (.str "") [("option", .dict []), ("value", .null)] = .null ∧
    parse_value (.str "abc") [("option", .dict []), ("value", .null)] = .str "abc" ∧
    parse_value (.str "2024-01-01") [("option", .dict []), ("value", .null)] =
      .time 2024 1 1 0 0 0 ∧
    (∀ (row : Row) (o : List (String × Val)) (v : Val),
      dget row "option" .null = .dict o → o ≠ [] → pyIn v (.dict o) = false →
      parse_value v row = dget row "value" .null) := by
  refine ⟨by decide, by decide, by decide, by decide, by decide, ?_⟩
  intro row o v ho hne hin
  unfold parse_value
  rw [ho]
  dsimp only
  rw [hin]
  have ht : pyTruthy (.dict o) = true := by simp [pyTruthy, hne]
  rw [ht]
  rfl

/-- C3 witness: a concrete option-constrained row rejecting a raw value. -/
theorem parse_value_typing_witness :
    parse_value (.str "zz") [("option", .dict [("x", .str "X")]), ("value", .int 7)] =
      .int 7 :=
  (parse_value_typing.2.2.2.2.2
    [("option", .dict [("x", .str "X")]), ("value", .int 7)]
    [("x", .str "X")] (.str "zz") rfl (by decide) (by decide)).trans (by decide)

/-- C10: `upsert_db` merges the ENTIRE request mapping into every row matched
by the 4-tuple predicate — every key/value pair of the request, including
keys that are not schema-row fields such as `config`, ends up in the row. -/
theorem upsert_db_merges_whole_request (store : List Row) (request : Row)
    (hnod : (rowKeys request).Nodup)
    (_hfunc : pyTruthy (dget request "func" .null) = true)
    (_hgroup : pyTruthy (dget request "group" .null) = true)
    (_harg : pyTruthy (dget request "arg" .null) = true)
    (_hlang : pyTruthy (dget request "lang" .null) = true) :
    upsert_db store request =
      store.map (fun r => if requestMatches request r then dupdate r request else r) ∧
    ∀ r ∈ store, requestMatches request r = true →
      ∀ kv ∈ request, lookup? (dupdate r request) kv.1 = some kv.2 := by
  refine ⟨rfl, ?_⟩
  intro r _ _ kv hkv
  obtain ⟨k, v⟩ := kv
  exact lookup?_dupdate_mem request r k v hnod hkv

def c10row : Row :=
  [("func", .str "Main"), ("group", .str "Scheduler"), ("arg", .str "Enable"),
   ("lang", .str "zh-CN"), ("name", .str "N")]

def c10req : Row :=
  [("func", .str "Main"), ("group", .str "Scheduler"), ("arg", .str "Enable"),
   ("lang", .str "zh-CN"), ("config", .str "alas")]

/-- C10 witness: the foreign `config` key of the request lands in the row. -/
theorem upsert_db_merges_whole_request_witness :
    lookup? (dupdate c10row c10req) "config" = some (.str "alas") :=
  (upsert_db_merges_whole_request [c10row] c10req (by decide) (by decide) (by decide)
    (by decide) (by decide)).2 c10row (by decide) (by decide)
    ("config", .str "alas") (by decide)

def c6store : List Row := update_db [] [("Main", [("Scheduler", [("Interval", .int 10)])])]

/-- C6 (code bug): `update_code` binds `lines = CONFIG_IMPORT` without
copying, so the appends mutate the module-level `CONFIG_IMPORT` list.  On a
fixed store, a second emission in the same process starts from the grown
header and produces different (longer, duplicated) output — the output is NOT
a function of the store state alone.  Here: 15 lines on the first run, 18 on
the second. -/
theorem update_code_not_idempotent :
    (update_code CONFIG_IMPORT c6store).length = 15 ∧
    (update_code (update_code CONFIG_IMPORT c6store) c6store).length = 18 ∧
    update_code (update_code CONFIG_IMPORT c6store) c6store ≠
      update_code CONFIG_IMPORT c6store := by
  refine ⟨by decide, by decide, ?_⟩
  intro h
  have := congrArg List.length h
  rw [show (update_code (update_code CONFIG_IMPORT c6store) c6store).length = 18
      from by decide,
    show (update_code CONFIG_IMPORT c6store).length = 15 from by decide] at this
  simp at this

def c2old : Row :=
  [("name", .str "Custom"), ("option", .dict [("a.b", .str "Lbl")])]

def c2args : Row :=
  [("func", .str "f"), ("group", .str "g"), ("arg", .str "x"), ("lang", .str "l"),
   ("value", .int 1), ("option", .dict [("a.b", .str "raw")])]

/-- C2 counterexample: the prior row maps option key `"a.b"` to the label
`"Lbl"`, and the draft declares the same key — yet the merged row's label for
`"a.b"` is the raw key `"a.b"`, not `"Lbl"`: `deep_get(old, f'option.{k}')`
splits the key on `.` and looks up `old['option']['a']['b']`, so a flat label
under a dotted key is never found. -/
theorem data_merge_dotted_option_counterexample :
    dget (_data_merge c2old c2args) "option" .null = .dict [("a.b", .str "a.b")] ∧
    dget (_data_merge c2old c2args) "option" .null ≠ .dict [("a.b", .str "Lbl")] := by
  constructor <;> decide

/-- C2 (amended): for a draft row whose `arg` is not `_info`, the merged
`name`/`help` equal the prior value when non-empty and the
`<func.group.arg>.<attr>` placeholder otherwise; and for a draft declaring a
non-empty option mapping whose keys contain no `.`, each key's label is the
prior row's `option` label for that key when present there and the raw key
itself otherwise.  (Keys containing `.` are resolved as deep paths in the
prior row — see the counterexample — and `_info` rows get their option
cleared.) -/
theorem data_merge_sticky_amended :
    (∀ (old args : Row) (nm : String), dget old "name" (.str "") = .str nm →
      dget (_data_merge old args) "name" .null =
        (if nm = "" then .str (data_to_path (mergeBase args) ++ "." ++ "name")
         else .str nm)) ∧
    (∀ (old args : Row) (hm : String), dget old "help" (.str "") = .str hm →
      dget (_data_merge old args) "help" .null =
        (if hm = "" then .str (data_to_path (mergeBase args) ++ "." ++ "help")
         else .str hm)) ∧
    (∀ (old args : Row) (entries : List (String × Val)),
      dget (mergeBase args) "arg" .null ≠ .str "_info" →
      dget (mergeBase args) "option" .null = .dict entries → entries ≠ [] →
      (∀ p ∈ entries, splitDots p.1 = [p.1]) →
      dget (_data_merge old args) "option" .null =
        .dict (entries.map (fun p =>
          (p.1, match dget old "option" .null with
                | .dict po => (lookup? po p.1).getD (.str p.1)
                | _ => .str p.1)))) := by
  refine ⟨?_, ?_, ?_⟩
  · intro old args nm hnm
    unfold dget
    rw [lookup?_data_merge_name, Option.getD_some, mergeLabel_def, hnm]
    by_cases h : nm = ""
    · rw [if_pos h, if_neg (by simp [pyTruthy, h])]
    · rw [if_pos (by simp [pyTruthy, h]), if_neg h]
  · intro old args hm hhm
    unfold dget
    rw [lookup?_data_merge_help, Option.getD_some, mergeLabel_def, hhm]
    by_cases h : hm = ""
    · rw [if_pos h, if_neg (by simp [pyTruthy, h])]
    · rw [if_pos (by simp [pyTruthy, h]), if_neg h]
  · intro old args entries hinfo hval hne hdf
    unfold dget
    rw [lookup?_data_merge_option, if_neg (by simpa using hinfo), hval,
      if_pos (by simp [pyTruthy, hne]), Option.getD_some]
    have hkey : ∀ k : String, deepGetD (Val.dict old) ["option", k] (Val.str k) =
        match dget old "option" Val.null with
        | .dict po => (lookup? po k).getD (.str k)
        | _ => .str k := by
      intro k
      unfold deepGetD dget
      rw [deepGet?_dict_cons]
      rcases h : lookup? old "option" with _ | v
      · rfl
      · cases v with
        | dict po =>
          simp only [Option.getD_some]
          rw [deepGet?_dict_cons]
          rcases h2 : lookup? po k with _ | w <;> rfl
        | null => rfl
        | bool b => rfl
        | int n => rfl
        | float a b => rfl
        | str s => rfl
        | time y mo d hh mi s => rfl
    unfold mergeOptionVal optionKeysOf
    rw [List.map_map]
    congr 1
    apply List.map_congr_left
    intro p hp
    simp only [Function.comp]
    rw [hdf p hp, hkey p.1]
    rfl

def c2wold : Row :=
  [("name", .str "Custom Label"), ("option", .dict [("a", .str "Alpha")])]

def c2wargs : Row :=
  [("func", .str "Main"), ("group", .str "Scheduler"), ("arg", .str "Mode"),
   ("lang", .str "zh-CN"), ("value", .int 1),
   ("option", .dict [("a", .int 0), ("b", .int 1)])]

/-- C2 witness: prior `option = {"a": "Alpha"}` with draft keys `{a, b}`
merges to `{"a": "Alpha", "b": "b"}`, and a non-empty prior name sticks. -/
theorem data_merge_sticky_amended_witness :
    dget (_data_merge c2wold c2wargs) "name" .null = .str "Custom Label" ∧
    dget (_data_merge c2wold c2wargs) "option" .null =
      .dict [("a", .str "Alpha"), ("b", .str "b")] :=
  ⟨(data_merge_sticky_amended.1 c2wold c2wargs "Custom Label" (by decide)).trans
      (by decide),
   (data_merge_sticky_amended.2.2 c2wold c2wargs [("a", .int 0), ("b", .int 1)]
      (by decide) (by decide) (by decide) (by decide)).trans (by decide)⟩

def c9store : List Row := update_db [] [("f", [("g", [("a", .dict [("value", .null)])])])]

/-- C9 counterexample: a schema row whose default value is null.  Upserting
the raw value `""` (which value typing maps to null) falls back to the row's
default — which is null — so null IS stored at the path. -/
theorem upsert_config_stores_null_counterexample :
    deepGet? (upsert_config c9store (.dict []) "f" "g" "a" "zh-CN" (.str ""))
      ["f", "g", "a"] = some .null := by decide

/-- C9 (amended): provided the matched schema row's default value is
non-null, the value `upsert_config` writes at the request path is never null:
an empty-string raw value (typed to null) makes the row's default be stored
instead. -/
theorem upsert_config_never_null_amended (store : List Row) (cfg : Val)
    (func group arg lang : String) (value : Val) (drow : Row)
    (hf : '.' ∉ func.toList) (hg : '.' ∉ group.toList) (ha : '.' ∉ arg.toList)
    (hrow : deepGet? (select_db store [("func", .str func), ("group", .str group),
      ("arg", .str arg), ("lang", .str lang)]) [func, group, arg] = some (.dict drow))
    (hdef : dget drow "value" .null ≠ .null)
    (_hv : value ≠ .null) :
    deepGet? (upsert_config store cfg func group arg lang value) [func, group, arg] =
      some (if parse_value value drow = .null then dget drow "value" .null
            else parse_value value drow) ∧
    (if parse_value value drow = .null then dget drow "value" .null
     else parse_value value drow) ≠ .null := by
  have hpath : splitDots (data_to_path ([("func", .str func), ("group", .str group),
      ("arg", .str arg), ("lang", .str lang)] : Row)) = [func, group, arg] := by
    rw [data_to_path_eq ([("func", .str func), ("group", .str group),
      ("arg", .str arg), ("lang", .str lang)] : Row) func group arg rfl rfl rfl]
    apply splitDots_joinDots
    · simp
    · intro p hp
      rcases List.mem_cons.mp hp with rfl | hp
      · exact hf
      rcases List.mem_cons.mp hp with rfl | hp
      · exact hg
      rcases List.mem_cons.mp hp with rfl | hp
      · exact ha
      · simp at hp
  constructor
  · unfold upsert_config
    dsimp only
    rw [hpath, show deepGetD (select_db store [("func", .str func), ("group", .str group),
        ("arg", .str arg), ("lang", .str lang)]) [func, group, arg] Val.null =
        .dict drow from by unfold deepGetD; rw [hrow]; rfl]
    dsimp only
    split
    · exact deepGet?_deepSet_self _ _ _
    · exact deepGet?_deepSet_self _ _ _
  · split
    · exact hdef
    · rename_i hnull
      exact hnull

def c9wstore : List Row := update_db [] [("f", [("g", [("a", .str "x")])])]

def c9wrow : Row :=
  [("func", .str "f"), ("group", .str "g"), ("arg", .str "a"), ("lang", .str "zh-CN"),
   ("name", .str "f.g.a.name"), ("help", .str "f.g.a.help"), ("type", .str "input"),
   ("value", .str "x"), ("option", .dict [])]

/-- C9 witness: with a non-null default `"x"`, upserting the raw value `""`
stores the default rather than null. -/
theorem upsert_config_never_null_amended_witness :
    deepGet? (upsert_config c9wstore (.dict []) "f" "g" "a" "zh-CN" (.str ""))
      ["f", "g", "a"] = some (.str "x") :=
  ((upsert_config_never_null_amended c9wstore (.dict []) "f" "g" "a" "zh-CN"
    (.str "") c9wrow (by decide) (by decide) (by decide) (by decide) (by decide)
    (by decide)).1).trans (by decide)

def c1def : SchemaDef :=
  [("f", [("g", [("a", .dict [("value", .int 1),
    ("option", .dict [("a.b", .str "ab")])])])])]

def c1old : List Row :=
  [[("func", .str "f"), ("group", .str "g"), ("arg", .str "a"), ("lang", .str "zh-CN"),
    ("option", .dict [("a", .dict [("b", .str "X")])])]]

/-- C1 counterexample: a schema definition with the dotted option key `"a.b"`
and a prior store whose option mapping nests `{"a": {"b": "X"}}`.  The first
migration resolves `deep_get(old, 'option.a.b')` to `"X"`; the second run
looks the same path up in the rebuilt flat mapping `{"a.b": "X"}`, misses,
and falls back to the raw key — so the second store differs from the first. -/
theorem update_db_not_idempotent_counterexample :
    update_db (update_db c1old c1def) c1def ≠ update_db c1old c1def := by decide

/-- C1 (amended): migration is idempotent for every prior store and every
schema definition whose draft rows' option values (when truthy) are mappings
with dot-free keys: the second `update_db` run rebuilds a store identical to
the first — placeholders are not re-generated differently and no duplicate
rows appear. -/
theorem update_db_idempotent_amended (old : List Row) (args : SchemaDef)
    (h : draftsOptionOK args = true) :
    update_db (update_db old args) args = update_db old args :=
  update_db_idem_aux old args h

def c1wdef : SchemaDef :=
  [("Main", [("Scheduler", [("Enable", .dict [("value", .bool true), ("type", .str "select"),
      ("option", .dict [("on", .str ""), ("off", .str "")])]),
    ("Interval", .int 10)])])]

def c1wold : List Row :=
  [[("func", .str "Main"), ("group", .str "Scheduler"), ("arg", .str "Enable"),
    ("lang", .str "zh-CN"), ("name", .str "Old name"),
    ("option", .dict [("on", .str "开")])]]

/-- C1 witness: a dot-free schema definition with options and a prior store;
the second migration reproduces the first byte for byte. -/
theorem update_db_idempotent_amended_witness :
    draftsOptionOK c1wdef = true ∧
    update_db (update_db c1wold c1wdef) c1wdef = update_db c1wold c1wdef :=
  ⟨by decide, update_db_idempotent_amended c1wold c1wdef (by decide)⟩

def c4def : SchemaDef := [("f", [("_info", [("x", .int 1)])])]

/-- C4 counterexample: a schema definition using the reserved group name
`_info` with a real argument.  The migrated store contains TWO rows with
`group = _info` for `(f, zh-CN)` — the leaf row `(f, _info, x)` and the
synthesized `(f, _info, _info)` — so "exactly one row with `group = _info`
per (func, lang)" fails. -/
theorem update_db_group_info_counterexample :
    (update_db [] c4def).countP
      (fun r2 => (key4 r2).1 == some (.str "f") &&
        (key4 r2).2.2.2 == some (.str "zh-CN") &&
        (key4 r2).2.1 == some (Val.str "_info")) = 2 ∧
    ∃ r ∈ update_db [] c4def,
      (key4 r).1 = some (.str "f") ∧ (key4 r).2.2.2 = some (.str "zh-CN") := by
  constructor
  · decide
  · decide

/-- C4 (amended): after migration (i) at most one row exists per key 4-tuple
(func, group, arg, lang); (ii) for every (func, group, lang) occurring in a
row there is exactly one row with `arg = _info`; and (iii) — provided the
schema definition does not itself use `_info` as a group name (no draft row
has `group = _info` without `arg = _info`) — for every (func, lang) occurring
in a row there is exactly one row with `group = _info`. -/
theorem update_db_store_invariants (old : List Row) (args : SchemaDef)
    (hgrp : ∀ d ∈ _data_iter args, lookup? d "group" = some (.str "_info") →
      lookup? d "arg" = some (.str "_info")) :
    (∀ t, (update_db old args).countP (fun r => key4 r == t) ≤ 1) ∧
    (∀ r ∈ update_db old args,
      (update_db old args).countP (fun r2 => key4 r2 == argInfoK (key4 r)) = 1) ∧
    (∀ r ∈ update_db old args,
      (update_db old args).countP (fun r2 =>
        (key4 r2).1 == (key4 r).1 && (key4 r2).2.2.2 == (key4 r).2.2.2 &&
        (key4 r2).2.1 == some (Val.str "_info")) = 1) := by
  obtain ⟨hnd, hcl, _⟩ := _data_iter_spec args
  have hmapk : (update_db old args).map key4 = (_data_iter args).map key4 :=
    update_db_map_key4 old args
  have hmem : ∀ r ∈ update_db old args, key4 r ∈ (_data_iter args).map key4 := by
    intro r hr
    rw [← hmapk]
    exact List.mem_map_of_mem key4 hr
  have hclk : ∀ t ∈ (_data_iter args).map key4,
      argInfoK t ∈ (_data_iter args).map key4 ∧
      funcInfoK t ∈ (_data_iter args).map key4 := by
    intro t ht
    rcases List.mem_map.mp ht with ⟨d, hd, rfl⟩
    exact hcl d hd
  have hgrpk : ∀ t ∈ (_data_iter args).map key4,
      t.2.1 = some (Val.str "_info") → t.2.2.1 = some (Val.str "_info") := by
    intro t ht hgi
    rcases List.mem_map.mp ht with ⟨d, hd, rfl⟩
    exact hgrp d hd hgi
  have hsnd : (update_db old args).Nodup := List.Nodup.of_map key4 (hmapk ▸ hnd)
  have hinj : ∀ a ∈ update_db old args, ∀ b ∈ update_db old args,
      key4 a = key4 b → a = b := by
    intro a ha b hb he
    exact List.inj_on_of_nodup_map (hmapk ▸ hnd : ((update_db old args).map key4).Nodup)
      ha hb he
  refine ⟨?_, ?_, ?_⟩
  · intro t
    exact countP_le_one_of_nodup _ _ hsnd
      (fun a ha b hb hpa hpb => hinj a ha b hb (by
        have h1 : key4 a = t := by simpa using hpa
        have h2 : key4 b = t := by simpa using hpb
        rw [h1, h2]))
  · intro r hr
    have hex : argInfoK (key4 r) ∈ (update_db old args).map key4 := by
      rw [hmapk]
      exact (hclk (key4 r) (hmem r hr)).1
    rcases List.mem_map.mp hex with ⟨r0, hr0, he0⟩
    apply countP_eq_one_of_nodup _ _ hsnd r0 hr0 (by simp [he0])
    intro k hk hp
    exact hinj k hk r0 hr0 (by rw [he0]; simpa using hp)
  · intro r hr
    have hex : funcInfoK (key4 r) ∈ (update_db old args).map key4 := by
      rw [hmapk]
      exact (hclk (key4 r) (hmem r hr)).2
    rcases List.mem_map.mp hex with ⟨r0, hr0, he0⟩
    apply countP_eq_one_of_nodup _ _ hsnd r0 hr0
    · rw [he0]
      rw [show funcInfoK (key4 r) = ((key4 r).1, some (Val.str "_info"),
        some (Val.str "_info"), (key4 r).2.2.2) from rfl]
      simp
    · intro k hk hp
      apply hinj k hk r0 hr0
      rw [he0]
      simp only [Bool.and_eq_true, beq_iff_eq] at hp
      have hai : (key4 k).2.2.1 = some (Val.str "_info") := by
        apply hgrpk (key4 k) (by rw [← hmapk]; exact List.mem_map_of_mem key4 hk)
        exact hp.2
      rw [show key4 k = ((key4 k).1, (key4 k).2.1, (key4 k).2.2.1, (key4 k).2.2.2)
        from rfl, hp.1.1, hp.2, hai, hp.1.2]
      rfl

def c4wdef : SchemaDef := [("Main", [("Scheduler", [("Interval", .int 10)])])]

def c4wrow : Row :=
  [("func", .str "Main"), ("group", .str "Scheduler"), ("arg", .str "Interval"),
   ("lang", .str "zh-CN"), ("name", .str "Main.Scheduler.Interval.name"),
   ("help", .str "Main.Scheduler.Interval.help"), ("type", .str "input"),
   ("value", .int 10), ("option", .dict [])]

/-- C4 witness: in the migrated store of a well-formed definition there is
exactly one `(Main, Scheduler, _info, zh-CN)` row. -/
theorem update_db_store_invariants_witness :
    (update_db [] c4wdef).countP
      (fun r2 => key4 r2 == argInfoK (key4 c4wrow)) = 1 :=
  (update_db_store_invariants [] c4wdef (by decide)).2.1 c4wrow (by decide)

/-- First-occurrence deduplication, the order `visited_path` imposes. -/
def firstDedup (l : List String) : List String :=
  l.foldl (fun acc p => if acc.contains p then acc else acc ++ [p]) []

theorem emitStep_fields (st : EmitState) (r : Row) :
    (emitStep st r).emitted =
      (if st.visitedPath.contains (rowEmitPath r) ||
          strContains (rowEmitPath r) "_info" then st.emitted
       else st.emitted ++ [rowEmitPath r]) ∧
    (emitStep st r).visitedPath =
      (if st.visitedPath.contains (rowEmitPath r) ||
          strContains (rowEmitPath r) "_info" then st.visitedPath
       else st.visitedPath ++ [rowEmitPath r]) ∧
    (emitStep st r).lines.length + 2 * st.visitedFunc.length + st.emitted.length =
      st.lines.length + 2 * (emitStep st r).visitedFunc.length +
        (emitStep st r).emitted.length := by
  unfold emitStep
  dsimp only
  split <;> split <;> simp +arith [List.length_append]

theorem emit_foldl_spec (args : List Row) (st : EmitState)
    (hinv : st.visitedPath = st.emitted) :
    (args.foldl emitStep st).emitted =
      ((args.map rowEmitPath).filter (fun p => !strContains p "_info")).foldl
        (fun acc p => if acc.contains p then acc else acc ++ [p]) st.emitted ∧
    (args.foldl emitStep st).visitedPath = (args.foldl emitStep st).emitted ∧
    (args.foldl emitStep st).lines.length + 2 * st.visitedFunc.length +
        st.emitted.length =
      st.lines.length + 2 * (args.foldl emitStep st).visitedFunc.length +
        (args.foldl emitStep st).emitted.length := by
  induction args generalizing st with
  | nil => exact ⟨rfl, hinv, rfl⟩
  | cons r args ih =>
    obtain ⟨he, hv, hl⟩ := emitStep_fields st r
    have hinv2 : (emitStep st r).visitedPath = (emitStep st r).emitted := by
      rw [he, hv, hinv]
    obtain ⟨ih1, ih2, ih3⟩ := ih (emitStep st r) hinv2
    rw [List.foldl_cons, List.map_cons, List.filter_cons]
    refine ⟨?_, ih2, ?_⟩
    · rw [ih1, he, hinv]
      by_cases hi : strContains (rowEmitPath r) "_info" = true
      · simp [hi]
      · simp [eq_false_of_ne_true hi, List.foldl_cons]
    · omega

theorem foldl_dedup_nodup (l : List String) (acc : List String) (h : acc.Nodup) :
    (l.foldl (fun acc p => if acc.contains p then acc else acc ++ [p]) acc).Nodup := by
  induction l generalizing acc with
  | nil => exact h
  | cons q t ih =>
    rw [List.foldl_cons]
    by_cases hq : acc.contains q = true
    · rw [if_pos hq]
      exact ih acc h
    · rw [if_neg hq]
      refine ih _ ?_
      rw [List.nodup_append]
      refine ⟨h, List.nodup_singleton q, ?_⟩
      intro a ha hq2
      simp only [List.mem_singleton] at hq2
      exact hq (hq2 ▸ (by simpa using ha))

theorem foldl_dedup_mem (l : List String) (acc : List String) (p : String) :
    p ∈ l.foldl (fun acc p => if acc.contains p then acc else acc ++ [p]) acc ↔
      p ∈ acc ∨ p ∈ l := by
  induction l generalizing acc with
  | nil => simp
  | cons q t ih =>
    rw [List.foldl_cons, ih]
    by_cases hq : acc.contains q = true
    · rw [if_pos hq]
      have : q ∈ acc := by simpa using hq
      constructor
      · rintro (h | h)
        · exact Or.inl h
        · exact Or.inr (List.mem_cons_of_mem _ h)
      · rintro (h | h)
        · exact Or.inl h
        · rcases List.mem_cons.mp h with rfl | h2
          · exact Or.inl this
          · exact Or.inr h2
    · rw [if_neg hq]
      simp [List.mem_append, List.mem_cons, or_assoc, or_comm, or_left_comm]

def c7store : List Row :=
  update_db [] [("A", [("g", [("a", .int 1)])]), ("B", [("g", [("a", .int 2)])])]

/-- C7 counterexample: two functions `A` and `B` both declare `g.a`.  The
canonical-language rows contain the two distinct non-info full paths
`A.g.a` and `B.g.a`, but `update_code` deduplicates by the func-less
`group.arg` string, so only ONE declaration line is emitted — `B.g.a` never
gets a line. -/
theorem update_code_per_func_path_counterexample :
    ((c7store.filter (fun r => requestMatches [("lang", .str "zh-CN")] r)).map
        data_to_path).filter (fun p => !strContains p "_info") =
      ["A.g.a", "B.g.a"] ∧
    (update_code_state CONFIG_IMPORT c7store).emitted = ["g.a"] := by
  constructor
  · decide
  · decide

/-- C7 (amended): `update_code` emits exactly one declaration line per
distinct `group.arg` pair (NOT func-qualified) whose dotted string does not
contain `_info` as a substring, at its first occurrence among the
canonical-language rows: the emitted paths are the first-occurrence
deduplication of the filtered path list, they are pairwise distinct, a pair
gets a line iff it occurs in the filtered list, the emitted list is exactly
the loop's `visited_path` insertion order, and the output line count is the
header plus two lines per visited func plus exactly one line per emitted
pair. -/
theorem update_code_one_line_per_pair (configImport : List String) (store : List Row) :
    (update_code_state configImport store).emitted =
      firstDedup (((store.filter (fun r =>
        requestMatches [("lang", .str "zh-CN")] r)).map rowEmitPath).filter
        (fun p => !strContains p "_info")) ∧
    (update_code_state configImport store).emitted.Nodup ∧
    (∀ p, p ∈ (update_code_state configImport store).emitted ↔
      p ∈ ((store.filter (fun r => requestMatches [("lang", .str "zh-CN")] r)).map
        rowEmitPath).filter (fun p => !strContains p "_info")) ∧
    (update_code_state configImport store).visitedPath =
      (update_code_state configImport store).emitted ∧
    (update_code configImport store).length =
      configImport.length +
        2 * (update_code_state configImport store).visitedFunc.length +
        (update_code_state configImport store).emitted.length := by
  obtain ⟨h1, h2, h3⟩ := emit_foldl_spec
    (store.filter (fun r => requestMatches [("lang", .str "zh-CN")] r))
    ⟨[], [], configImport, []⟩ rfl
  have h1x : (update_code_state configImport store).emitted =
      firstDedup (((store.filter (fun r =>
        requestMatches [("lang", .str "zh-CN")] r)).map rowEmitPath).filter
        (fun p => !strContains p "_info")) := h1
  refine ⟨h1x, ?_, ?_, h2, ?_⟩
  · rw [h1x]
    exact foldl_dedup_nodup _ _ List.nodup_nil
  · intro p
    rw [h1x]
    unfold firstDedup
    rw [foldl_dedup_mem]
    simp
  · have h3x : (update_code configImport store).length + 2 * 0 + 0 =
        configImport.length +
          2 * (update_code_state configImport store).visitedFunc.length +
          (update_code_state configImport store).emitted.length := h3
    simpa using h3x

theorem foldl_filter_not {α β : Type} (c : α → Bool) (f : β → α → β) (l : List α)
    (init : β) :
    l.foldl (fun acc r => if c r then acc else f acc r) init =
      (l.filter (fun r => !c r)).foldl f init := by
  induction l generalizing init with
  | nil => rfl
  | cons a t ih =>
    rw [List.foldl_cons, List.filter_cons]
    by_cases hc : c a = true
    · simp only [hc, if_pos, Bool.not_true, Bool.false_eq_true, if_false]
      exact ih init
    · simp only [eq_false_of_ne_true hc, Bool.false_eq_true, if_false, Bool.not_false,
        if_true, List.foldl_cons]
      exact ih (f init a)

theorem foldl_congr_mem {α β : Type} (l : List α) (f g : β → α → β) (init : β)
    (h : ∀ b, ∀ a ∈ l, f b a = g b a) : l.foldl f init = l.foldl g init := by
  induction l generalizing init with
  | nil => rfl
  | cons a t ih =>
    rw [List.foldl_cons, List.foldl_cons, h init a (List.mem_cons_self _ _)]
    exact ih _ (fun b x hx => h b x (List.mem_cons_of_mem _ hx))

/-- The rows `update_config` projects: default-language rows that are not
`_info` rows. -/
def relevantRows (store : List Row) : List Row :=
  (store.filter (fun r => lookup? r "lang" == some (.str "zh-CN"))).filter
    (fun r => !(dget r "group" .null == Val.str "_info" ||
      dget r "arg" .null == Val.str "_info"))

def c5store : List Row := update_db [] [("f", [("g", [("a", .str "3")])])]

def c5row : Row :=
  [("func", .str "f"), ("group", .str "g"), ("arg", .str "a"), ("lang", .str "zh-CN"),
   ("name", .str "f.g.a.name"), ("help", .str "f.g.a.help"), ("type", .str "input"),
   ("value", .str "3"), ("option", .dict [])]

/-- C5 counterexample: a schema row whose default is the STRING `"3"`.
Projecting a config from an empty prior file stores the integer 3 at
`f.g.a` — `parse_value` re-types the default — so the stored value is not
the schema row's default value. -/
theorem update_config_default_counterexample :
    c5row ∈ c5store ∧ dget c5row "value" .null = .str "3" ∧
    deepGet? (update_config c5store (.dict []) false (.str "RID")) ["f", "g", "a"] =
      some (.int 3) ∧
    (Val.int 3) ≠ (Val.str "3") := by
  refine ⟨by decide, by decide, by decide, by decide⟩

/-- C5 (amended): projecting a non-template configuration from an empty prior
instance file stores, at every non-info default-language schema path, exactly
the `parse_value`-typed image of the schema row's default (hypotheses: the
paths are depth-3 and pairwise distinct, as migration produces for dot-free
names). -/
theorem update_config_fills_typed_defaults (store : List Row) (rid : Val)
    (hlen : ∀ r ∈ relevantRows store, (splitDots (data_to_path r)).length = 3)
    (hnd : ((relevantRows store).map (fun r => splitDots (data_to_path r))).Nodup) :
    ∀ r ∈ relevantRows store,
      deepGet? (update_config store (.dict []) false rid) (splitDots (data_to_path r)) =
        some (parse_value (dget r "value" .null) r) := by
  intro r hr
  have hfold : ((store.filter (fun r => lookup? r "lang" == some (.str "zh-CN"))).foldl
      (fun new r =>
        if dget r "group" .null == Val.str "_info" ||
            dget r "arg" .null == Val.str "_info" then new
        else
          deepSet new (splitDots (data_to_path r))
            (parse_value (deepGetD (.dict []) (splitDots (data_to_path r))
              (dget r "value" .null)) r))
      (.dict [])) =
      (((relevantRows store).map (fun r => (splitDots (data_to_path r),
        parse_value (dget r "value" .null) r))).foldl
        (fun a q => deepSet a q.1 q.2) (.dict [])) := by
    rw [foldl_filter_not]
    unfold relevantRows
    rw [List.foldl_map]
    apply foldl_congr_mem
    intro b a ha
    dsimp only
    have h3 := hlen a (by unfold relevantRows; exact ha)
    rcases hs : splitDots (data_to_path a) with _ | ⟨k, ks⟩
    · rw [hs] at h3; simp at h3
    · rfl
  have hget : deepGet? (((relevantRows store).map (fun r => (splitDots (data_to_path r),
      parse_value (dget r "value" .null) r))).foldl
        (fun a q => deepSet a q.1 q.2) (.dict []))
      (splitDots (data_to_path r)) =
      some (parse_value (dget r "value" .null) r) := by
    apply deepGet?_foldSet_mem
    · intro q hq
      rcases List.mem_map.mp hq with ⟨x, hx, rfl⟩
      rw [hlen x hx, hlen r hr]
    · rw [show ((relevantRows store).map (fun r => (splitDots (data_to_path r),
        parse_value (dget r "value" .null) r))).map Prod.fst =
        (relevantRows store).map (fun r => splitDots (data_to_path r)) from by
          rw [List.map_map]; rfl]
      exact hnd
    · exact List.mem_map_of_mem _ hr
  unfold update_config
  dsimp only
  rw [hfold]
  unfold _check_config
  rw [if_neg (by simp)]
  unfold deepDefault
  split
  · exact hget
  · rename_i ha
    rw [deepGet?_deepSet_ne]
    · exact hget
    · rw [hlen r hr]; rfl
    · intro he
      rw [he, hget] at ha
      simp at ha

def c5wstore : List Row := update_db [] [("Main", [("Scheduler", [("Interval", .int 10)])])]

def c5wrow : Row :=
  [("func", .str "Main"), ("group", .str "Scheduler"), ("arg", .str "Interval"),
   ("lang", .str "zh-CN"), ("name", .str "Main.Scheduler.Interval.name"),
   ("help", .str "Main.Scheduler.Interval.help"), ("type", .str "input"),
   ("value", .int 10), ("option", .dict [])]

/-- C5 witness: projecting from an empty file fills `Main.Scheduler.Interval`
with the (already typed) default 10. -/
theorem update_config_fills_typed_defaults_witness :
    deepGet? (update_config c5wstore (.dict []) false (.str "RID"))
      (splitDots (data_to_path c5wrow)) =
      some (parse_value (dget c5wrow "value" .null) c5wrow) :=
  update_config_fills_typed_defaults c5wstore (.str "RID") (by decide) (by decide)
    c5wrow (by decide)

theorem splitChar_ne_nil (c : Char) (l : List Char) : splitChar c l ≠ [] := by
  cases l with
  | nil => simp [splitChar]
  | cons x xs =>
    unfold splitChar
    by_cases h : x = c
    · simp [h]
    · rw [if_neg h]
      rcases hs : splitChar c xs with _ | ⟨hh, tt⟩ <;> simp

def topKeys (t : Val) : List String := (dictFields t).map Prod.fst

theorem requestMatches_func {func lang : String} {r : Row} (hfne : func ≠ "")
    (h : requestMatches [("func", .str func), ("lang", .str lang)] r = true) :
    lookup? r "func" = some (.str func) := by
  unfold requestMatches at h
  have h1 := (List.all_eq_true.mp h) "func" (by decide)
  rw [show dget ([("func", Val.str func), ("lang", Val.str lang)] : Row) "func" Val.null =
      .str func from rfl] at h1
  rw [if_pos (by simp [pyTruthy, hfne])] at h1
  simpa using h1

theorem data_to_path_head (r : Row) (func : String) (hfd : '.' ∉ func.toList)
    (hf : lookup? r "func" = some (.str func)) :
    ∃ rest, splitDots (data_to_path r) = func :: rest ∧ rest ≠ [] := by
  have hpath : data_to_path r =
      joinDots [func, pyStrOf (dget r "group" (.str "")),
        pyStrOf (dget r "arg" (.str ""))] := by
    unfold data_to_path
    simp only [List.map_cons, List.map_nil]
    unfold dget
    rw [hf]
    rfl
  refine ⟨(splitChar '.' ((pyStrOf (dget r "group" (.str ""))).toList ++
    '.' :: (pyStrOf (dget r "arg" (.str ""))).toList)).map (fun l => String.mk l),
    ?_, ?_⟩
  · rw [hpath]
    unfold joinDots splitDots
    rw [foldl_join_toList]
    simp only [List.flatMap_cons, List.flatMap_nil, List.append_nil, List.cons_append]
    rw [splitChar_append '.' _ _ hfd, List.map_cons, mk_toList]
  · intro he
    exact splitChar_ne_nil '.' _ (by simpa using he)

theorem foldl_flatMap {α β γ : Type} (l : List α) (g : α → List β) (f : γ → β → γ)
    (init : γ) :
    (l.flatMap g).foldl f init = l.foldl (fun b x => (g x).foldl f b) init := by
  induction l generalizing init with
  | nil => rfl
  | cons x t ih =>
    rw [List.flatMap_cons, List.foldl_append, List.foldl_cons, ih]

theorem filterMap_if {α β : Type} (l : List α) (c : α → Bool) (p : α → β) :
    l.filterMap (fun x => if c x then some (p x) else none) = (l.filter c).map p := by
  induction l with
  | nil => rfl
  | cons x t ih =>
    rw [List.filterMap_cons, List.filter_cons]
    by_cases hc : c x = true
    · rw [if_pos hc, if_pos hc, List.map_cons, ih]
    · rw [if_neg hc, if_neg hc, ih]

theorem foldl_if_filterMap {α : Type} (l : List α) (c : α → Bool) (p : α → List String × Val)
    (init : Val) :
    l.foldl (fun b x => if c x then deepSet b (p x).1 (p x).2 else b) init =
      (l.filterMap (fun x => if c x then some (p x) else none)).foldl
        (fun a q => deepSet a q.1 q.2) init := by
  induction l generalizing init with
  | nil => rfl
  | cons x t ih =>
    rw [List.foldl_cons, List.filterMap_cons]
    by_cases hc : c x = true
    · rw [if_pos hc, if_pos hc, List.foldl_cons, ih]
    · rw [if_neg hc, if_neg hc, ih]

theorem splitDots_single (s : String) (h : '.' ∉ s.toList) : splitDots s = [s] := by
  unfold splitDots
  rw [splitChar_no_sep '.' _ h, List.map_cons, List.map_nil, mk_toList]

/-- The keys at the top of a `select_db` response for a func-filtered request:
only the requested func, with no duplicates. -/
theorem select_db_top (store : List Row) (func lang : String) (hfd : '.' ∉ func.toList)
    (hfne : func ≠ "") :
    (∀ k ∈ topKeys (select_db store [("func", .str func), ("lang", .str lang)]),
      k = func) ∧
    (topKeys (select_db store [("func", .str func), ("lang", .str lang)])).Nodup := by
  have main : ∀ (l : List Row) (t : Val),
      (∀ r ∈ l, requestMatches [("func", .str func), ("lang", .str lang)] r = true) →
      (∀ k ∈ topKeys t, k = func) → (topKeys t).Nodup →
      (∀ k ∈ topKeys (l.foldl (fun response r =>
        deepSet response (splitDots (data_to_path r)) (.dict r)) t), k = func) ∧
      (topKeys (l.foldl (fun response r =>
        deepSet response (splitDots (data_to_path r)) (.dict r)) t)).Nodup := by
    intro l
    induction l with
    | nil => exact fun t _ hk hnd => ⟨hk, hnd⟩
    | cons r rest ih =>
      intro t hm hk hnd
      rw [List.foldl_cons]
      obtain ⟨tail, hpath, _⟩ := data_to_path_head r func hfd
        (requestMatches_func hfne (hm r (List.mem_cons_self _ _)))
      have hstep : topKeys (deepSet t (splitDots (data_to_path r)) (.dict r)) =
          (if hasKey (dictFields t) func then topKeys t else topKeys t ++ [func]) := by
        rw [hpath]
        show rowKeys (dset (dictFields t) func
          (deepSet (match lookup? (dictFields t) func with
            | some c => c
            | none => Val.dict []) tail (Val.dict r))) = _
        rw [rowKeys_dset]
        rfl
      refine ih _ (fun x hx => hm x (List.mem_cons_of_mem _ hx)) ?_ ?_
      · intro k hkk
        rw [hstep] at hkk
        by_cases hc : hasKey (dictFields t) func = true
        · rw [if_pos hc] at hkk
          exact hk k hkk
        · rw [if_neg hc] at hkk
          rcases List.mem_append.mp hkk with h | h
          · exact hk k h
          · simpa using h
      · rw [hstep]
        by_cases hc : hasKey (dictFields t) func = true
        · rw [if_pos hc]
          exact hnd
        · rw [if_neg hc]
          rw [List.nodup_append]
          refine ⟨hnd, List.nodup_singleton _, ?_⟩
          intro a ha hfa
          simp only [List.mem_singleton] at hfa
          subst hfa
          apply hc
          simp only [topKeys, rowKeys, List.mem_map] at ha
          obtain ⟨p, hp, hpe⟩ := ha
          unfold hasKey
          rw [List.any_eq_true]
          exact ⟨p, hp, by simp [hpe]⟩
  exact main _ (.dict []) (fun r hr => (List.mem_filter.mp hr).2) (by simp [topKeys, dictFields])
    (by simp [topKeys, dictFields])

theorem dset_all_keys_eq (d : Row) (k : String) (v : Val)
    (hk : ∀ x ∈ rowKeys d, x = k) (hnd : (rowKeys d).Nodup) :
    dset d k v = [(k, v)] := by
  match d with
  | [] => rfl
  | [p] =>
    have hp : p.1 = k := hk p.1 (by simp [rowKeys])
    unfold dset
    rw [if_pos (by simp [hasKey, hp])]
    simp [hp]
  | p :: q :: t =>
    exfalso
    have hp : p.1 = k := hk p.1 (by simp [rowKeys])
    have hq : q.1 = k := hk q.1 (by simp [rowKeys])
    unfold rowKeys at hnd
    simp only [List.map_cons, List.nodup_cons] at hnd
    exact hnd.1 (by simp [hp, hq])

/-- For a `{func, lang}` request, `select_config` returns exactly one top-level
entry: the requested func, carrying the config subtree at that key. -/
theorem select_config_top (store : List Row) (cfg : Val) (func lang : String)
    (gs : List (String × Val)) (hfd : '.' ∉ func.toList) (hfne : func ≠ "")
    (hcfg : deepGet? cfg [func] = some (.dict gs)) :
    select_config store cfg [("func", .str func), ("lang", .str lang)] =
      .dict [(func, .dict gs)] := by
  obtain ⟨hk, hnd⟩ := select_db_top store func lang hfd hfne
  unfold select_config
  have hparts : (["func", "group", "arg"].filterMap (fun k =>
      let v := dget [("func", Val.str func), ("lang", Val.str lang)] k .null
      if pyTruthy v then some (pyStrOf v) else none)) = [func] := by
    simp [dget, lookup?, pyTruthy, pyStrOf, hfne]
  dsimp only
  rw [hparts]
  rw [show joinDots [func] = func from rfl, splitDots_single func hfd]
  rw [show deepGetD cfg [func] Val.null = Val.dict gs by
    unfold deepGetD
    rw [hcfg]
    rfl]
  show Val.dict (dset (dictFields (select_db store
    [("func", Val.str func), ("lang", Val.str lang)])) func (Val.dict gs)) = _
  rw [dset_all_keys_eq _ _ _ hk hnd]

theorem foldl_if_eq_filter {α β : Type} (l : List α) (c : α → Prop) [DecidablePred c]
    (f : β → α → β) (init : β) :
    l.foldl (fun b x => if c x then f b x else b) init
      = (l.filter (fun x => decide (c x))).foldl f init := by
  induction l generalizing init with
  | nil => rfl
  | cons x t ih =>
    rw [List.foldl_cons, List.filter_cons]
    by_cases hc : c x
    · rw [if_pos hc, if_pos (by simpa using hc), List.foldl_cons, ih]
    · rw [if_neg hc, if_neg (by simpa using hc), ih]

/-- CLAIM C8 (amended): in `select_function` for a `{func, lang}` request,
when the instance config holds a mapping at the requested func whose group and
arg keys are dot-free and whose (group, arg) pairs are pairwise distinct,
every NON-null config value is overlaid at the `value` sub-key of
`func.group.arg` in the response.  Null (`None`) values are skipped — the
overlay is conditional on `value is not None`, refuting the spec sentence
that says every stored value overrides the row (see the counterexample). -/
theorem select_function_overlays_non_null (store : List Row) (cfg : Val)
    (func lang g a : String) (v : Val) (gs : List (String × Val))
    (hfd : '.' ∉ func.toList) (hfne : func ≠ "")
    (hcfg : deepGet? cfg [func] = some (.dict gs))
    (hdot : ∀ t ∈ gs.flatMap (fun gp => (valItems gp.2).map (fun ap => (gp.1, ap.1, ap.2))),
      '.' ∉ t.1.toList ∧ '.' ∉ t.2.1.toList)
    (hnd : ((gs.flatMap (fun gp =>
      (valItems gp.2).map (fun ap => (gp.1, ap.1, ap.2)))).map
        (fun t => (t.1, t.2.1))).Nodup)
    (hmem : (g, a, v) ∈ gs.flatMap (fun gp =>
      (valItems gp.2).map (fun ap => (gp.1, ap.1, ap.2))))
    (hv : v ≠ Val.null) :
    deepGet? (select_function store cfg func lang) [func, g, a, "value"] = some v := by
  unfold select_function
  dsimp only
  rw [select_config_top store cfg func lang gs hfd hfne hcfg]
  show deepGet? (List.foldl (fun db gp => List.foldl
      (fun db ap => if ap.2 ≠ Val.null then
        deepSet db (splitDots (joinDots [func, gp.1, ap.1] ++ ".value")) ap.2 else db) db
      (valItems gp.2))
    (select_db store [("func", Val.str func), ("lang", Val.str lang)]) gs)
    [func, g, a, "value"] = some v
  have hflat : List.foldl (fun db gp => List.foldl
      (fun db ap => if ap.2 ≠ Val.null then
        deepSet db (splitDots (joinDots [func, gp.1, ap.1] ++ ".value")) ap.2 else db) db
      (valItems gp.2))
      (select_db store [("func", Val.str func), ("lang", Val.str lang)]) gs
      = (gs.flatMap (fun gp => (valItems gp.2).map (fun ap => (gp.1, ap.1, ap.2)))).foldl
          (fun db t => if t.2.2 ≠ Val.null then
            deepSet db (splitDots (joinDots [func, t.1, t.2.1] ++ ".value")) t.2.2 else db)
          (select_db store [("func", Val.str func), ("lang", Val.str lang)]) := by
    rw [foldl_flatMap]
    apply (foldl_congr_mem _ _ _ _ _).symm
    intro b gp _
    rw [List.foldl_map]
  rw [hflat]
  have hfil : (gs.flatMap (fun gp => (valItems gp.2).map (fun ap => (gp.1, ap.1, ap.2)))).foldl
          (fun db t => if t.2.2 ≠ Val.null then
            deepSet db (splitDots (joinDots [func, t.1, t.2.1] ++ ".value")) t.2.2 else db)
          (select_db store [("func", Val.str func), ("lang", Val.str lang)])
      = ((gs.flatMap (fun gp => (valItems gp.2).map (fun ap => (gp.1, ap.1, ap.2)))).filter
          (fun t => decide (t.2.2 ≠ Val.null))).foldl
          (fun db t =>
            deepSet db (splitDots (joinDots [func, t.1, t.2.1] ++ ".value")) t.2.2)
          (select_db store [("func", Val.str func), ("lang", Val.str lang)]) :=
    foldl_if_eq_filter _ _ _ _
  rw [hfil]
  have hmap : ((gs.flatMap (fun gp => (valItems gp.2).map (fun ap => (gp.1, ap.1, ap.2)))).filter
          (fun t => decide (t.2.2 ≠ Val.null))).foldl
          (fun db t =>
            deepSet db (splitDots (joinDots [func, t.1, t.2.1] ++ ".value")) t.2.2)
          (select_db store [("func", Val.str func), ("lang", Val.str lang)])
      = (((gs.flatMap (fun gp => (valItems gp.2).map (fun ap => (gp.1, ap.1, ap.2)))).filter
          (fun t => decide (t.2.2 ≠ Val.null))).map
            (fun t => (splitDots (joinDots [func, t.1, t.2.1] ++ ".value"), t.2.2))).foldl
          (fun q1 q2 => deepSet q1 q2.1 q2.2)
          (select_db store [("func", Val.str func), ("lang", Val.str lang)]) := by
    rw [List.foldl_map]
  rw [hmap]
  have hcanon : ((gs.flatMap (fun gp =>
        (valItems gp.2).map (fun ap => (gp.1, ap.1, ap.2)))).filter
          (fun t => decide (t.2.2 ≠ Val.null))).map
            (fun t => (splitDots (joinDots [func, t.1, t.2.1] ++ ".value"), t.2.2))
      = ((gs.flatMap (fun gp =>
        (valItems gp.2).map (fun ap => (gp.1, ap.1, ap.2)))).filter
          (fun t => decide (t.2.2 ≠ Val.null))).map
            (fun t => ([func, t.1, t.2.1, "value"], t.2.2)) := by
    apply List.map_congr_left
    intro t ht
    have hdt := hdot t (List.mem_of_mem_filter ht)
    have hsp : splitDots (joinDots [func, t.1, t.2.1] ++ ".value")
        = [func, t.1, t.2.1, "value"] := by
      rw [joinDots_append_value]
      apply splitDots_joinDots _ (by simp)
      intro p hp
      simp only [List.mem_cons, List.not_mem_nil, or_false] at hp
      rcases hp with rfl | rfl | rfl | rfl
      · exact hfd
      · exact hdt.1
      · exact hdt.2
      · decide
    rw [hsp]
  rw [hcanon]
  apply deepGet?_foldSet_mem
  · intro q hq
    rw [List.mem_map] at hq
    obtain ⟨t, _, rfl⟩ := hq
    rfl
  · rw [List.map_map]
    rw [show (Prod.fst ∘ (fun t : String × String × Val => ([func, t.1, t.2.1, "value"], t.2.2)))
      = ((fun pr : String × String => [func, pr.1, pr.2, "value"]) ∘
          (fun t : String × String × Val => (t.1, t.2.1))) from rfl]
    rw [← List.map_map]
    have hsub : (((gs.flatMap (fun gp =>
        (valItems gp.2).map (fun ap => (gp.1, ap.1, ap.2)))).filter
          (fun t => decide (t.2.2 ≠ Val.null))).map
            (fun t : String × String × Val => (t.1, t.2.1))).Nodup := by
      apply List.Nodup.sublist _ hnd
      exact List.Sublist.map _ (List.filter_sublist _)
    have hinj : Function.Injective
        (fun pr : String × String => [func, pr.1, pr.2, "value"]) := by
      intro p q h
      simp only [List.cons.injEq, and_true] at h
      exact Prod.ext h.2.1 h.2.2
    exact List.Nodup.map hinj hsub
  · apply List.mem_map.mpr
    refine ⟨(g, a, v), ?_, rfl⟩
    apply List.mem_filter.mpr
    exact ⟨hmem, by simpa using hv⟩

def c8store : List Row := update_db [] [("f", [("g", [("a", .str "x")])])]

def c8cfg : Val := .dict [("f", .dict [("g", .dict [("a", .null)])])]

/-- C8 counterexample: the instance configuration holds a live `None` value at
path `f.g.a`, yet `select_function` keeps the schema row value `"x"` under the
`value` sub-key — the overlay is skipped for null values, so not EVERY live
instance value is overlaid as the spec sentence states. -/
theorem select_function_null_counterexample :
    deepGet? c8cfg ["f", "g", "a"] = some Val.null ∧
    deepGet? (select_function c8store c8cfg "f" "zh-CN") ["f", "g", "a", "value"]
      = some (Val.str "x") := by decide

/-- C8 witness: the amended overlay theorem applied at a concrete store and
configuration — the non-null instance value `"7"` at `f.g.a` does override the
schema row value in the response. -/
theorem select_function_overlays_non_null_witness :
    deepGet? (select_function (update_db [] [("f", [("g", [("a", .str "3")])])])
      (.dict [("f", .dict [("g", .dict [("a", .str "7")])])]) "f" "zh-CN")
      ["f", "g", "a", "value"] = some (Val.str "7") :=
  select_function_overlays_non_null
    (update_db [] [("f", [("g", [("a", .str "3")])])])
    (.dict [("f", .dict [("g", .dict [("a", .str "7")])])])
    "f" "zh-CN" "g" "a" (.str "7") [("g", .dict [("a", .str "7")])]
    (by decide) (by decide) (by decide) (by decide) (by decide) (by decide) (by decide)
